import Mathlib

/-!
Verification of the chess-challenge placement enumerator.

This file gives a shallow embedding of the repository's core modules
(src/chess/structures.py and src/chess/solvers.py) and proves the frozen
claims about them.

Modelling conventions:
  * The numpy uint8 state matrix is modelled as a total function
    state : Nat -> Nat -> Nat together with explicit rows/cols fields
    (the shape of the array).  All values ever written are 0, 1 or a piece
    identifier (2..6), far below 256, so uint8 wraparound never occurs.
  * Python generators are modelled as eagerly computed lists; the mutation
    of the scan cursor performed by next_position / available_positions is
    made explicit by returning the updated board.
  * The class-level sets completed_set / solutions_set of
    RecursiveBruteForceSolver are threaded explicitly as a SolverState.
  * Python's hash of a frozenset of placement records is modelled as an
    arbitrary function h : Finset Nat -> Int of the set of records: the only
    property the code relies on, and the only property Python guarantees,
    is that equal sets hash equal, which holds for every function.  All
    solver theorems are proved for every such h.
  * The while-loops of next_position and positions_run are written with an
    explicit fuel; the wrapper passes fuel that is proved sufficient.
  * uint16 truncation of the placement record is the explicit % 65536.
-/

namespace ChessChallenge

/-- The five piece classes of src/chess/structures.py. -/
inductive Piece where
  | king
  | queen
  | bishop
  | rook
  | knight
deriving DecidableEq, Repr

/-- KingPiece.identifier() = 2, QueenPiece = 3, BishopPiece = 4,
RookPiece = 5, KnightPiece = 6. -/
def identifier : Piece → ℕ
  | .king => 2
  | .queen => 3
  | .bishop => 4
  | .rook => 5
  | .knight => 6

/-- _KING_QUEEN_MOVES. -/
def kingQueenMoves : List (ℤ × ℤ) :=
  [(-1, -1), (-1, 0), (-1, 1), (0, -1), (0, 1), (1, -1), (1, 0), (1, 1)]

/-- _BISHOP_MOVES. -/
def bishopMoves : List (ℤ × ℤ) :=
  [(-1, -1), (-1, 1), (1, -1), (1, 1)]

/-- _ROOK_MOVES. -/
def rookMoves : List (ℤ × ℤ) :=
  [(-1, 0), (0, -1), (0, 1), (1, 0)]

/-- _KNIGHT_MOVES. -/
def knightMoves : List (ℤ × ℤ) :=
  [(-2, -1), (-2, 1), (-1, -2), (-1, 2), (1, -2), (1, 2), (2, -1), (2, 1)]

/-- The move table each piece class passes to positions_step / positions_run. -/
def movesOf : Piece → List (ℤ × ℤ)
  | .king => kingQueenMoves
  | .queen => kingQueenMoves
  | .bishop => bishopMoves
  | .rook => rookMoves
  | .knight => knightMoves

/-- AbstractPiece.positions_step: the given offsets intersected with the board
bounds.  The Python generator reads only board.rows and board.cols from the
board argument, so the embedding takes the two dimensions directly. -/
def positions_step (rows cols : ℕ) (row col : ℕ) (moves : List (ℤ × ℤ)) :
    List (ℕ × ℕ) :=
  moves.filterMap (fun d =>
    if 0 ≤ (row : ℤ) + d.1 ∧ (row : ℤ) + d.1 < (rows : ℤ) ∧
       0 ≤ (col : ℤ) + d.2 ∧ (col : ℤ) + d.2 < (cols : ℤ) then
      some (((row : ℤ) + d.1).toNat, ((col : ℤ) + d.2).toNat)
    else none)

/-- One direction of the while-loop of AbstractPiece.positions_run: starting
from (crow, ccol), repeatedly step by d while the next square is in bounds,
yielding every square stepped onto.  The Python loop is unbounded; here it
carries fuel, and the wrapper passes rows + cols, which is proved sufficient
for the unit-step move tables the run pieces use. -/
def runFromFuel (rows cols : ℕ) (d : ℤ × ℤ) : ℕ → ℤ → ℤ → List (ℕ × ℕ)
  | 0, _, _ => []
  | fuel + 1, crow, ccol =>
    if 0 ≤ crow + d.1 ∧ crow + d.1 < (rows : ℤ) ∧
       0 ≤ ccol + d.2 ∧ ccol + d.2 < (cols : ℤ) then
      ((crow + d.1).toNat, (ccol + d.2).toNat) ::
        runFromFuel rows cols d fuel (crow + d.1) (ccol + d.2)
    else []

/-- AbstractPiece.positions_run: first the single-step phase over all moves,
then, per move, the run walked outward from (row, col). -/
def positions_run (rows cols : ℕ) (row col : ℕ) (moves : List (ℤ × ℤ)) :
    List (ℕ × ℕ) :=
  positions_step rows cols row col moves ++
    moves.flatMap (fun d => runFromFuel rows cols d (rows + cols) (row : ℤ) (col : ℤ))

/-- The positions classmethod of each piece class: King and Knight are step
movers, Queen, Bishop and Rook are run movers. -/
def positions : Piece → ℕ → ℕ → ℕ → ℕ → List (ℕ × ℕ)
  | .king, rows, cols, row, col => positions_step rows cols row col kingQueenMoves
  | .queen, rows, cols, row, col => positions_run rows cols row col kingQueenMoves
  | .bishop, rows, cols, row, col => positions_run rows cols row col bishopMoves
  | .rook, rows, cols, row, col => positions_run rows cols row col rookMoves
  | .knight, rows, cols, row, col => positions_step rows cols row col knightMoves

/-- The 16-bit placement record of Board.add_piece:
uint16((identifier - 2) | (col << 4) | (row << 10)). -/
def pieceHash (p : Piece) (row col : ℕ) : ℕ :=
  ((identifier p - 2) ||| (col <<< 4) ||| (row <<< 10)) % 65536

/-- The same record computed from a raw identifier value (used to relate the
pieces set to the state matrix). -/
def hashOfId (idv row col : ℕ) : ℕ :=
  ((idv - 2) ||| (col <<< 4) ||| (row <<< 10)) % 65536

/-- Board of src/chess/structures.py.  rows and cols are the shape of the
numpy state array; _next_row/_next_col is the scan cursor; pieces is the set
of 16-bit placement records. -/
structure Board where
  rows : ℕ
  cols : ℕ
  state : ℕ → ℕ → ℕ
  nextRow : ℕ
  nextCol : ℕ
  pieces : Finset ℕ

/-- A board whose state matrix is numpy.zeros((rows, cols)): every square 0,
cursor (0, 0), empty pieces set. -/
def emptyBoard (rows cols : ℕ) : Board :=
  { rows := rows, cols := cols, state := fun _ _ => 0,
    nextRow := 0, nextCol := 0, pieces := ∅ }

/-- Board.new(rows, cols).  numpy.zeros raises ValueError on a negative
dimension (modelled as none) and succeeds, producing a possibly zero-area
empty board, on any non-negative dimensions. -/
def Board.new (rows cols : ℤ) : Option Board :=
  if rows < 0 ∨ cols < 0 then none
  else some (emptyBoard rows.toNat cols.toNat)

/-- Point update of the state matrix: self.state[r][c] = v. -/
def setSq (st : ℕ → ℕ → ℕ) (r c v : ℕ) : ℕ → ℕ → ℕ :=
  fun r' c' => if r' = r ∧ c' = c then v else st r' c'

/-- Board.add_piece.  Returns the Python boolean result together with the
board after the call (unchanged when the result is False). -/
def Board.add_piece (b : Board) (piece : Piece) (row col : ℕ) : Bool × Board :=
  if b.state row col ≠ 0 then (false, b)
  else if (positions piece b.rows b.cols row col).any
            (fun q => decide (1 < b.state q.1 q.2)) then (false, b)
  else
    let st1 := setSq b.state row col (identifier piece)
    let st2 := (positions piece b.rows b.cols row col).foldl
      (fun st q => setSq st q.1 q.2 1) st1
    (true, { b with state := st2,
                    pieces := insert (pieceHash piece row col) b.pieces })

/-- Board.copy: a deep clone; in the pure model this is the board itself. -/
def Board.copy (b : Board) : Board :=
  { rows := b.rows, cols := b.cols, state := b.state,
    nextRow := b.nextRow, nextCol := b.nextCol, pieces := b.pieces }

/-- The while-loop of Board.next_position: starting at cursor (nr, nc),
advance over non-zero squares (column-wise, wrapping to the next row) and
stop at the first zero square, or report none from the last square.  The
wrapper passes fuel rows * cols, proved sufficient for an in-bounds cursor. -/
def nextPosGo (b : Board) : ℕ → ℕ → ℕ → Option (ℕ × ℕ) × ℕ × ℕ
  | 0, nr, nc => (none, nr, nc)
  | fuel + 1, nr, nc =>
    if b.state nr nc ≠ 0 then
      if nc < b.cols - 1 then nextPosGo b fuel nr (nc + 1)
      else if nr < b.rows - 1 then nextPosGo b fuel (nr + 1) 0
      else (none, nr, nc)
    else (some (nr, nc), nr, nc)

/-- Board.next_position: returns (None, None) or the found square, updating
the cursor in place. -/
def Board.next_position (b : Board) : Option (ℕ × ℕ) × Board :=
  let r := nextPosGo b (b.rows * b.cols) b.nextRow b.nextCol
  (r.1, { b with nextRow := r.2.1, nextCol := r.2.2 })

/-- The scan of Board.available_positions after next_position returned
(nr, nc): the free squares of row nr from column nc on, then the free squares
of every later row from column 0. -/
def freeFrom (b : Board) (nr nc : ℕ) : List (ℕ × ℕ) :=
  (List.range' nc (b.cols - nc)).filterMap
      (fun c => if b.state nr c = 0 then some (nr, c) else none) ++
    (List.range' (nr + 1) (b.rows - (nr + 1))).flatMap
      (fun r => (List.range b.cols).filterMap
        (fun c => if b.state r c = 0 then some (r, c) else none))

/-- Board.available_positions: calls next_position (mutating the cursor) and
yields every free square from the found position on, in row-major order. -/
def Board.available_positions (b : Board) : List (ℕ × ℕ) × Board :=
  let r := b.next_position
  match r.1 with
  | none => ([], r.2)
  | some (nr, nc) => (freeFrom r.2 nr nc, r.2)

/-- The class-level sets of RecursiveBruteForceSolver, threaded explicitly:
completed_set and solutions_set hold Python hash values (ints). -/
structure SolverState where
  completed : Finset ℤ
  solutions : Finset ℤ

/-- The trailing lines of _solutions_recursive: if 1 < len(board.pieces) <= 5,
record hash(frozenset(board.pieces)) in completed_set. -/
def completedStep (h : Finset ℕ → ℤ) (b : Board) (st : SolverState) : SolverState :=
  if 1 < b.pieces.card ∧ b.pieces.card ≤ 5 then
    { st with completed := insert (h b.pieces) st.completed }
  else st

/-- The inner position loop of _solutions_recursive (for next_row, next_col in
board.available_positions()).  rec is the recursive call
_solutions_recursive; boardScan plays board (whose copies re-seed next_board
after each success); nextBoard is the threaded next_board.  Returns the
yielded boards in order, the final solver state, and the final next_board. -/
def posLoop (h : Finset ℕ → ℤ)
    (rec : Board → List Piece → SolverState → List Board × SolverState)
    (boardScan : Board) (pieces : List Piece) (index : ℕ) (piece : Piece) :
    List (ℕ × ℕ) → Board → SolverState → List Board × SolverState × Board
  | [], nextBoard, st => ([], st, nextBoard)
  | (row, col) :: rest, nextBoard, st =>
    let a := nextBoard.add_piece piece row col
    if a.1 then
      if pieces.length = 1 ∧ h a.2.pieces ∉ st.solutions then
        let st1 := { st with solutions := insert (h a.2.pieces) st.solutions }
        let r := posLoop h rec boardScan pieces index piece rest boardScan.copy st1
        (a.2 :: r.1, r.2)
      else if h a.2.pieces ∉ st.completed then
        let rr := rec a.2 (pieces.eraseIdx index) st
        let r := posLoop h rec boardScan pieces index piece rest boardScan.copy rr.2
        (rr.1 ++ r.1, r.2)
      else
        posLoop h rec boardScan pieces index piece rest boardScan.copy st
    else
      posLoop h rec boardScan pieces index piece rest a.2 st

/-- The outer piece loop of _solutions_recursive (for index, piece in
enumerate(pieces)), with its skip of a piece whose class equals the previous
list element's class.  Threads board (mutated by available_positions) and
next_board.  Returns yields, final state, final board, final next_board. -/
def pieceLoop (h : Finset ℕ → ℤ)
    (rec : Board → List Piece → SolverState → List Board × SolverState)
    (pieces : List Piece) :
    ℕ → List Piece → Board → Board → SolverState →
      List Board × SolverState × Board × Board
  | _, [], boardScan, nextBoard, st => ([], st, boardScan, nextBoard)
  | index, piece :: rest, boardScan, nextBoard, st =>
    if 0 < index ∧ pieces[index - 1]? = some piece then
      pieceLoop h rec pieces (index + 1) rest boardScan nextBoard st
    else
      let av := boardScan.available_positions
      let r1 := posLoop h rec av.2 pieces index piece av.1 nextBoard st
      let r2 := pieceLoop h rec pieces (index + 1) rest av.2 r1.2.2 r1.2.1
      (r1.1 ++ r2.1, r2.2)

/-- RecursiveBruteForceSolver._solutions_recursive with explicit fuel bounding
the recursion depth (each recursive call removes one piece from the list, so
fuel exceeding the list length is proved sufficient). -/
def solRecF (h : Finset ℕ → ℤ) :
    ℕ → Board → List Piece → SolverState → List Board × SolverState
  | 0, _, _, st => ([], st)
  | fuel + 1, board, pieces, st =>
    let np := board.next_position
    match np.1 with
    | some _ =>
      let r := pieceLoop h (solRecF h fuel) pieces 0 pieces np.2 np.2.copy st
      (r.1, completedStep h r.2.2.1 r.2.1)
    | none => ([], completedStep h np.2 st)

/-- _solutions_recursive itself: run with sufficient fuel. -/
def solutionsRecursive (h : Finset ℕ → ℤ) (board : Board) (pieces : List Piece)
    (st : SolverState) : List Board × SolverState :=
  solRecF h (pieces.length + 1) board pieces st

/-- The flattening of the (piece, count) list performed at the top of
RecursiveBruteForceSolver._solutions. -/
def expandPieces (spec : List (Piece × ℕ)) : List Piece :=
  spec.flatMap (fun pc => List.replicate pc.2 pc.1)

/-- RecursiveBruteForceSolver._solutions for a board of the given (already
validated, natural) dimensions: fresh empty class sets, empty board, full
recursion. -/
def solverSolutions (h : Finset ℕ → ℤ) (rows cols : ℕ)
    (spec : List (Piece × ℕ)) : List Board × SolverState :=
  solutionsRecursive h (emptyBoard rows cols) (expandPieces spec) ⟨∅, ∅⟩

/-- RecursiveBruteForceSolver._solutions with the Board.new dimension check
included (none models the numpy ValueError escaping before any search). -/
def solverSolutionsZ (h : Finset ℕ → ℤ) (rows cols : ℤ)
    (spec : List (Piece × ℕ)) : Option (List Board × SolverState) :=
  match Board.new rows cols with
  | none => none
  | some b => some (solutionsRecursive h b (expandPieces spec) ⟨∅, ∅⟩)

/-! Basic facts about identifiers, move tables and state updates. -/

lemma identifier_ge_two (p : Piece) : 2 ≤ identifier p := by cases p <;> simp [identifier]

lemma identifier_injective {p q : Piece} (h : identifier p = identifier q) : p = q := by
  revert h; cases p <;> cases q <;> decide

lemma movesOf_nonzero (p : Piece) : ∀ d ∈ movesOf p, ¬(d.1 = 0 ∧ d.2 = 0) := by
  cases p <;> decide

lemma movesOf_unit_of_run (p : Piece)
    (hp : p = Piece.queen ∨ p = Piece.bishop ∨ p = Piece.rook) :
    ∀ d ∈ movesOf p,
      (d.1 = -1 ∨ d.1 = 0 ∨ d.1 = 1) ∧ (d.2 = -1 ∨ d.2 = 0 ∨ d.2 = 1) := by
  rcases hp with h | h | h <;> subst h <;> decide

lemma setSq_eval (st : ℕ → ℕ → ℕ) (r c v r' c' : ℕ) :
    setSq st r c v r' c' = if r' = r ∧ c' = c then v else st r' c' := rfl

lemma foldl_setSq_eval (L : List (ℕ × ℕ)) (st : ℕ → ℕ → ℕ) (r c : ℕ) :
    (L.foldl (fun s q => setSq s q.1 q.2 1) st) r c
      = if (r, c) ∈ L then 1 else st r c := by
  induction L generalizing st with
  | nil => simp
  | cons q L ih =>
    rw [List.foldl_cons, ih]
    by_cases h : (r, c) ∈ L
    · simp [h]
    · by_cases hq : (r, c) = q
      · have : r = q.1 ∧ c = q.2 := by rw [← hq]; exact ⟨rfl, rfl⟩
        simp [h, hq, setSq_eval, this]
      · have : ¬(r = q.1 ∧ c = q.2) := by
          intro hc; exact hq (Prod.ext hc.1 hc.2)
        simp [h, hq, setSq_eval, this]

/-! Characterisation of the movement generators. -/

lemma positions_step_mem (rows cols row col : ℕ) (moves : List (ℤ × ℤ))
    (q : ℕ × ℕ) :
    q ∈ positions_step rows cols row col moves ↔
      ∃ d ∈ moves,
        (0 ≤ (row : ℤ) + d.1 ∧ (row : ℤ) + d.1 < (rows : ℤ) ∧
         0 ≤ (col : ℤ) + d.2 ∧ (col : ℤ) + d.2 < (cols : ℤ)) ∧
        q = (((row : ℤ) + d.1).toNat, ((col : ℤ) + d.2).toNat) := by
  simp only [positions_step, List.mem_filterMap, Option.ite_none_right_eq_some,
    Option.some.injEq]
  constructor
  · rintro ⟨d, hd, hcond, hq⟩; exact ⟨d, hd, hcond, hq.symm⟩
  · rintro ⟨d, hd, hcond, hq⟩; exact ⟨d, hd, hcond, hq.symm⟩

lemma positions_step_bounds (rows cols row col : ℕ) (moves : List (ℤ × ℤ)) :
    ∀ q ∈ positions_step rows cols row col moves, q.1 < rows ∧ q.2 < cols := by
  intro q hq
  obtain ⟨d, _, hcond, hq⟩ := (positions_step_mem rows cols row col moves q).1 hq
  subst hq
  obtain ⟨h1, h2, h3, h4⟩ := hcond
  exact ⟨by omega, by omega⟩

lemma runFromFuel_sound (rows cols : ℕ) (d : ℤ × ℤ) :
    ∀ (fuel : ℕ) (cr cc : ℤ) (a b : ℕ),
      (a, b) ∈ runFromFuel rows cols d fuel cr cc →
      ∃ k : ℕ, 1 ≤ k ∧ (a : ℤ) = cr + k * d.1 ∧ (b : ℤ) = cc + k * d.2 ∧
        a < rows ∧ b < cols := by
  intro fuel
  induction fuel with
  | zero => intro cr cc a b h; simp [runFromFuel] at h
  | succ f ih =>
    intro cr cc a b h
    rw [runFromFuel] at h
    split at h
    case isTrue hcond =>
      obtain ⟨hc1, hc2, hc3, hc4⟩ := hcond
      rcases List.mem_cons.1 h with heq | htail
      · have ha : a = (cr + d.1).toNat := congrArg Prod.fst heq
        have hb : b = (cc + d.2).toNat := congrArg Prod.snd heq
        refine ⟨1, le_refl 1, ?_, ?_, ?_, ?_⟩
        · rw [ha]; push_cast; omega
        · rw [hb]; push_cast; omega
        · omega
        · omega
      · obtain ⟨k, hk, hka, hkb, hbd⟩ := ih _ _ _ _ htail
        refine ⟨k + 1, by omega, ?_, ?_, hbd.1, hbd.2⟩
        · rw [hka]; push_cast; ring
        · rw [hkb]; push_cast; ring
    case isFalse => simp at h

lemma runFromFuel_complete (rows cols : ℕ) (d : ℤ × ℤ)
    (hd1 : d.1 = -1 ∨ d.1 = 0 ∨ d.1 = 1) (hd2 : d.2 = -1 ∨ d.2 = 0 ∨ d.2 = 1) :
    ∀ (k' : ℕ) (fuel : ℕ), k' + 1 ≤ fuel → ∀ cr cc : ℤ,
      0 ≤ cr → cr < (rows : ℤ) → 0 ≤ cc → cc < (cols : ℤ) →
      0 ≤ cr + (k' + 1 : ℕ) * d.1 → cr + (k' + 1 : ℕ) * d.1 < (rows : ℤ) →
      0 ≤ cc + (k' + 1 : ℕ) * d.2 → cc + (k' + 1 : ℕ) * d.2 < (cols : ℤ) →
      ((cr + (k' + 1 : ℕ) * d.1).toNat, (cc + (k' + 1 : ℕ) * d.2).toNat) ∈
        runFromFuel rows cols d fuel cr cc := by
  intro k'
  induction k' with
  | zero =>
    intro fuel hfuel cr cc h1 h2 h3 h4 h5 h6 h7 h8
    obtain ⟨f, rfl⟩ : ∃ f, fuel = f + 1 := ⟨fuel - 1, by omega⟩
    rw [runFromFuel]
    have hcond : 0 ≤ cr + d.1 ∧ cr + d.1 < (rows : ℤ) ∧
        0 ≤ cc + d.2 ∧ cc + d.2 < (cols : ℤ) := by
      push_cast at h5 h6 h7 h8; constructor; omega; constructor; omega
      constructor; omega; omega
    rw [if_pos hcond]
    have e1 : cr + ((0 + 1 : ℕ) : ℤ) * d.1 = cr + d.1 := by push_cast; ring
    have e2 : cc + ((0 + 1 : ℕ) : ℤ) * d.2 = cc + d.2 := by push_cast; ring
    rw [e1, e2]
    exact List.mem_cons_self _ _
  | succ n ih =>
    intro fuel hfuel cr cc h1 h2 h3 h4 h5 h6 h7 h8
    obtain ⟨f, rfl⟩ : ∃ f, fuel = f + 1 := ⟨fuel - 1, by omega⟩
    have hstep : 0 ≤ cr + d.1 ∧ cr + d.1 < (rows : ℤ) ∧
        0 ≤ cc + d.2 ∧ cc + d.2 < (cols : ℤ) := by
      push_cast at h5 h6 h7 h8
      rcases hd1 with e | e | e <;> rcases hd2 with e' | e' | e' <;>
        rw [e] at h5 h6 ⊢ <;> rw [e'] at h7 h8 ⊢ <;>
        refine ⟨by omega, by omega, by omega, by omega⟩
    rw [runFromFuel, if_pos hstep]
    have e1 : cr + ((n + 1 + 1 : ℕ) : ℤ) * d.1
        = (cr + d.1) + ((n + 1 : ℕ) : ℤ) * d.1 := by push_cast; ring
    have e2 : cc + ((n + 1 + 1 : ℕ) : ℤ) * d.2
        = (cc + d.2) + ((n + 1 : ℕ) : ℤ) * d.2 := by push_cast; ring
    rw [e1, e2]
    refine List.mem_cons_of_mem _ (ih f (by omega) (cr + d.1) (cc + d.2)
      hstep.1 hstep.2.1 hstep.2.2.1 hstep.2.2.2 ?_ ?_ ?_ ?_)
    · rw [← e1]; exact h5
    · rw [← e1]; exact h6
    · rw [← e2]; exact h7
    · rw [← e2]; exact h8

lemma run_steps_le (rows cols : ℕ) (d : ℤ × ℤ)
    (hd1 : d.1 = -1 ∨ d.1 = 0 ∨ d.1 = 1) (hd2 : d.2 = -1 ∨ d.2 = 0 ∨ d.2 = 1)
    (hdnz : ¬(d.1 = 0 ∧ d.2 = 0)) (k : ℕ) (cr cc : ℤ)
    (h1 : 0 ≤ cr) (h2 : cr < (rows : ℤ)) (h3 : 0 ≤ cc) (h4 : cc < (cols : ℤ))
    (h5 : 0 ≤ cr + (k : ℤ) * d.1) (h6 : cr + (k : ℤ) * d.1 < (rows : ℤ))
    (h7 : 0 ≤ cc + (k : ℤ) * d.2) (h8 : cc + (k : ℤ) * d.2 < (cols : ℤ)) :
    k ≤ rows + cols := by
  rcases hd1 with e | e | e <;> rcases hd2 with e' | e' | e' <;>
    rw [e] at h5 h6 <;> rw [e'] at h7 h8 <;> simp at h5 h6 h7 h8 ⊢ <;> omega

lemma positions_run_mem (rows cols row col : ℕ) (moves : List (ℤ × ℤ))
    (hrow : row < rows) (hcol : col < cols)
    (hunit : ∀ d ∈ moves,
      (d.1 = -1 ∨ d.1 = 0 ∨ d.1 = 1) ∧ (d.2 = -1 ∨ d.2 = 0 ∨ d.2 = 1) ∧
      ¬(d.1 = 0 ∧ d.2 = 0)) (a b : ℕ) :
    (a, b) ∈ positions_run rows cols row col moves ↔
      ∃ d ∈ moves, ∃ k : ℕ, 1 ≤ k ∧
        (a : ℤ) = (row : ℤ) + k * d.1 ∧ (b : ℤ) = (col : ℤ) + k * d.2 ∧
        a < rows ∧ b < cols := by
  constructor
  · intro h
    rcases List.mem_append.1 h with hstep | hrun
    · obtain ⟨d, hd, hcond, hq⟩ :=
        (positions_step_mem rows cols row col moves _).1 hstep
      have ha : a = ((row : ℤ) + d.1).toNat := congrArg Prod.fst hq
      have hb : b = ((col : ℤ) + d.2).toNat := congrArg Prod.snd hq
      obtain ⟨c1, c2, c3, c4⟩ := hcond
      refine ⟨d, hd, 1, le_refl 1, ?_, ?_, ?_, ?_⟩
      · rw [ha]; push_cast; omega
      · rw [hb]; push_cast; omega
      · omega
      · omega
    · obtain ⟨d, hd, hmem⟩ := List.mem_flatMap.1 hrun
      obtain ⟨k, hk, hka, hkb, hbd⟩ :=
        runFromFuel_sound rows cols d _ _ _ _ _ hmem
      exact ⟨d, hd, k, hk, hka, hkb, hbd⟩
  · rintro ⟨d, hd, k, hk, hka, hkb, hba, hbb⟩
    refine List.mem_append.2 (Or.inr (List.mem_flatMap.2 ⟨d, hd, ?_⟩))
    obtain ⟨k', rfl⟩ : ∃ k', k = k' + 1 := ⟨k - 1, by omega⟩
    have hu := hunit d hd
    have h5 : 0 ≤ (row : ℤ) + (k' + 1 : ℕ) * d.1 := by rw [← hka]; positivity
    have h6 : (row : ℤ) + (k' + 1 : ℕ) * d.1 < (rows : ℤ) := by
      rw [← hka]; exact_mod_cast hba
    have h7 : 0 ≤ (col : ℤ) + (k' + 1 : ℕ) * d.2 := by rw [← hkb]; positivity
    have h8 : (col : ℤ) + (k' + 1 : ℕ) * d.2 < (cols : ℤ) := by
      rw [← hkb]; exact_mod_cast hbb
    have hfuel : k' + 1 ≤ rows + cols :=
      run_steps_le rows cols d hu.1 hu.2.1 hu.2.2 (k' + 1) row col
        (by positivity) (by exact_mod_cast hrow) (by positivity)
        (by exact_mod_cast hcol) h5 h6 h7 h8
    have := runFromFuel_complete rows cols d hu.1 hu.2.1 k' (rows + cols)
      hfuel row col (by positivity) (by exact_mod_cast hrow) (by positivity)
      (by exact_mod_cast hcol) h5 h6 h7 h8
    have ea : ((row : ℤ) + (k' + 1 : ℕ) * d.1).toNat = a := by omega
    have eb : ((col : ℤ) + (k' + 1 : ℕ) * d.2).toNat = b := by omega
    rwa [ea, eb] at this

lemma positions_bounds (p : Piece) (rows cols row col : ℕ) :
    ∀ q ∈ positions p rows cols row col, q.1 < rows ∧ q.2 < cols := by
  intro q hq
  cases p <;> simp only [positions] at hq
  case king => exact positions_step_bounds _ _ _ _ _ q hq
  case knight => exact positions_step_bounds _ _ _ _ _ q hq
  all_goals {
    rcases List.mem_append.1 hq with hstep | hrun
    · exact positions_step_bounds _ _ _ _ _ q hstep
    · obtain ⟨d, _, hmem⟩ := List.mem_flatMap.1 hrun
      obtain ⟨q1, q2⟩ := q
      obtain ⟨k, _, _, _, hbd⟩ :=
        runFromFuel_sound rows cols d _ _ _ q1 q2 hmem
      exact hbd }

lemma self_not_mem_positions (p : Piece) (rows cols row col : ℕ) :
    (row, col) ∉ positions p rows cols row col := by
  intro h
  have hstep : ∀ moves : List (ℤ × ℤ), (∀ d ∈ moves, ¬(d.1 = 0 ∧ d.2 = 0)) →
      (row, col) ∉ positions_step rows cols row col moves := by
    intro moves hnz hmem
    obtain ⟨d, hd, hcond, hq⟩ :=
      (positions_step_mem rows cols row col moves _).1 hmem
    have ha : row = ((row : ℤ) + d.1).toNat := congrArg Prod.fst hq
    have hb : col = ((col : ℤ) + d.2).toNat := congrArg Prod.snd hq
    obtain ⟨c1, c2, c3, c4⟩ := hcond
    exact hnz d hd ⟨by omega, by omega⟩
  have hrun : ∀ moves : List (ℤ × ℤ), (∀ d ∈ moves, ¬(d.1 = 0 ∧ d.2 = 0)) →
      (row, col) ∉ moves.flatMap
        (fun d => runFromFuel rows cols d (rows + cols) (row : ℤ) (col : ℤ)) := by
    intro moves hnz hmem
    obtain ⟨d, hd, hm⟩ := List.mem_flatMap.1 hmem
    obtain ⟨k, hk, hka, hkb, _⟩ := runFromFuel_sound rows cols d _ _ _ _ _ hm
    have e1 : (k : ℤ) * d.1 = 0 := by omega
    have e2 : (k : ℤ) * d.2 = 0 := by omega
    have hknz : (k : ℤ) ≠ 0 := by
      have : k ≠ 0 := by omega
      exact_mod_cast this
    exact hnz d hd ⟨by
      rcases mul_eq_zero.1 e1 with h | h
      · exact absurd h hknz
      · exact h, by
      rcases mul_eq_zero.1 e2 with h | h
      · exact absurd h hknz
      · exact h⟩
  have hnzp := movesOf_nonzero p
  cases p <;> simp only [positions, movesOf] at h hnzp
  case king => exact hstep _ hnzp h
  case knight => exact hstep _ hnzp h
  all_goals {
    rcases List.mem_append.1 h with h' | h'
    · exact hstep _ hnzp h'
    · exact hrun _ hnzp h' }

/-! Behaviour of Board.add_piece. -/

/-- A piece of type p stands on square (r, c): the state matrix holds its
identifier there. -/
def IsPlaced (b : Board) (p : Piece) (r c : ℕ) : Prop :=
  b.state r c = identifier p

/-- Number of squares of the board holding a piece of type p. -/
def pieceCount (b : Board) (p : Piece) : ℕ :=
  ((Finset.range b.rows ×ˢ Finset.range b.cols).filter
    (fun q => b.state q.1 q.2 = identifier p)).card

/-- The squares occupied by a piece (state value above 1). -/
def occupiedSquares (b : Board) : Finset (ℕ × ℕ) :=
  (Finset.range b.rows ×ˢ Finset.range b.cols).filter
    (fun q => 1 < b.state q.1 q.2)

lemma add_piece_dims (b : Board) (p : Piece) (row col : ℕ) :
    (b.add_piece p row col).2.rows = b.rows ∧
    (b.add_piece p row col).2.cols = b.cols ∧
    (b.add_piece p row col).2.nextRow = b.nextRow ∧
    (b.add_piece p row col).2.nextCol = b.nextCol := by
  rw [Board.add_piece]
  split
  · exact ⟨rfl, rfl, rfl, rfl⟩
  · split
    · exact ⟨rfl, rfl, rfl, rfl⟩
    · exact ⟨rfl, rfl, rfl, rfl⟩

lemma add_piece_fail (b : Board) (p : Piece) (row col : ℕ)
    (h : ¬(b.state row col = 0 ∧
      ∀ q ∈ positions p b.rows b.cols row col, b.state q.1 q.2 ≤ 1)) :
    b.add_piece p row col = (false, b) := by
  rw [Board.add_piece]
  by_cases h0 : b.state row col ≠ 0
  · rw [if_pos h0]
  · push_neg at h0
    rw [if_neg (by simpa using h0)]
    have hex : ∃ q ∈ positions p b.rows b.cols row col, 1 < b.state q.1 q.2 := by
      by_contra hc
      push_neg at hc
      exact h ⟨h0, fun q hq => by have := hc q hq; omega⟩
    rw [if_pos (by
      rw [List.any_eq_true]
      obtain ⟨q, hq, hgt⟩ := hex
      exact ⟨q, hq, by simpa using hgt⟩)]

lemma add_piece_succeed (b : Board) (p : Piece) (row col : ℕ)
    (h0 : b.state row col = 0)
    (h1 : ∀ q ∈ positions p b.rows b.cols row col, b.state q.1 q.2 ≤ 1) :
    b.add_piece p row col =
      (true, { b with
        state := (positions p b.rows b.cols row col).foldl
          (fun st q => setSq st q.1 q.2 1) (setSq b.state row col (identifier p)),
        pieces := insert (pieceHash p row col) b.pieces }) := by
  rw [Board.add_piece]
  rw [if_neg (by simpa using h0)]
  rw [if_neg (by
    rw [List.any_eq_true]
    rintro ⟨q, hq, hgt⟩
    have := h1 q hq
    simp at hgt
    omega)]

lemma add_piece_fst_true_iff (b : Board) (p : Piece) (row col : ℕ) :
    (b.add_piece p row col).1 = true ↔
      b.state row col = 0 ∧
      ∀ q ∈ positions p b.rows b.cols row col, b.state q.1 q.2 ≤ 1 := by
  constructor
  · intro h
    by_contra hc
    rw [add_piece_fail b p row col hc] at h
    simp at h
  · intro h
    rw [add_piece_succeed b p row col h.1 h.2]

lemma add_piece_snd_of_fst_false (b : Board) (p : Piece) (row col : ℕ)
    (h : (b.add_piece p row col).1 = false) : (b.add_piece p row col).2 = b := by
  by_cases hc : b.state row col = 0 ∧
      ∀ q ∈ positions p b.rows b.cols row col, b.state q.1 q.2 ≤ 1
  · rw [add_piece_succeed b p row col hc.1 hc.2] at h ⊢
    simp at h
  · rw [add_piece_fail b p row col hc]

lemma add_piece_state_eval (b : Board) (p : Piece) (row col : ℕ)
    (h0 : b.state row col = 0)
    (h1 : ∀ q ∈ positions p b.rows b.cols row col, b.state q.1 q.2 ≤ 1)
    (r c : ℕ) :
    (b.add_piece p row col).2.state r c =
      if (r, c) ∈ positions p b.rows b.cols row col then 1
      else if r = row ∧ c = col then identifier p
      else b.state r c := by
  rw [add_piece_succeed b p row col h0 h1]
  show ((positions p b.rows b.cols row col).foldl
      (fun st q => setSq st q.1 q.2 1) (setSq b.state row col (identifier p))) r c = _
  rw [foldl_setSq_eval, setSq_eval]

lemma add_piece_pieces_eval (b : Board) (p : Piece) (row col : ℕ)
    (h0 : b.state row col = 0)
    (h1 : ∀ q ∈ positions p b.rows b.cols row col, b.state q.1 q.2 ≤ 1) :
    (b.add_piece p row col).2.pieces = insert (pieceHash p row col) b.pieces := by
  rw [add_piece_succeed b p row col h0 h1]

lemma add_piece_state_zero (b : Board) (p : Piece) (row col : ℕ)
    (h0 : b.state row col = 0)
    (h1 : ∀ q ∈ positions p b.rows b.cols row col, b.state q.1 q.2 ≤ 1)
    (r c : ℕ) (h : (b.add_piece p row col).2.state r c = 0) : b.state r c = 0 := by
  rw [add_piece_state_eval b p row col h0 h1] at h
  have hid := identifier_ge_two p
  split at h
  · omega
  · split at h
    · omega
    · exact h

lemma add_piece_isPlaced_iff (b : Board) (p : Piece) (row col : ℕ)
    (h0 : b.state row col = 0)
    (h1 : ∀ q ∈ positions p b.rows b.cols row col, b.state q.1 q.2 ≤ 1)
    (t : Piece) (r c : ℕ) :
    IsPlaced (b.add_piece p row col).2 t r c ↔
      IsPlaced b t r c ∨ (t = p ∧ r = row ∧ c = col) := by
  have hid := identifier_ge_two t
  rw [IsPlaced, add_piece_state_eval b p row col h0 h1]
  constructor
  · intro h
    split at h
    · omega
    · split at h
      next hrc =>
        exact Or.inr ⟨identifier_injective h.symm, hrc.1, hrc.2⟩
      next => exact Or.inl h
  · intro h
    rcases h with h | ⟨ht, hr, hc⟩
    · have hnotatt : (r, c) ∉ positions p b.rows b.cols row col := by
        intro hmem
        have := h1 _ hmem
        rw [IsPlaced] at h
        simp at this
        omega
      have hnotrc : ¬(r = row ∧ c = col) := by
        rintro ⟨rfl, rfl⟩
        rw [IsPlaced, h0] at h
        omega
      rw [if_neg hnotatt, if_neg hnotrc]
      exact h
    · rw [ht, hr, hc, if_neg (self_not_mem_positions p b.rows b.cols row col),
        if_pos ⟨rfl, rfl⟩]

lemma add_piece_count (b : Board) (p : Piece) (row col : ℕ)
    (hrow : row < b.rows) (hcol : col < b.cols)
    (h0 : b.state row col = 0)
    (h1 : ∀ q ∈ positions p b.rows b.cols row col, b.state q.1 q.2 ≤ 1)
    (t : Piece) :
    pieceCount (b.add_piece p row col).2 t =
      pieceCount b t + if t = p then 1 else 0 := by
  have hdims := add_piece_dims b p row col
  have hidt := identifier_ge_two t
  rw [pieceCount, pieceCount, hdims.1, hdims.2.1]
  have hset : (Finset.range b.rows ×ˢ Finset.range b.cols).filter
      (fun q => (b.add_piece p row col).2.state q.1 q.2 = identifier t) =
      if t = p then
        insert (row, col) ((Finset.range b.rows ×ˢ Finset.range b.cols).filter
          (fun q => b.state q.1 q.2 = identifier t))
      else (Finset.range b.rows ×ˢ Finset.range b.cols).filter
          (fun q => b.state q.1 q.2 = identifier t) := by
    split
    next ht =>
      ext q
      obtain ⟨r, c⟩ := q
      simp only [Finset.mem_insert, Finset.mem_filter, Finset.mem_product,
        Finset.mem_range, Prod.mk.injEq]
      rw [add_piece_state_eval b p row col h0 h1]
      constructor
      · rintro ⟨hin, hst⟩
        split at hst
        · omega
        · split at hst
          next hrc => exact Or.inl ⟨hrc.1, hrc.2⟩
          next => exact Or.inr ⟨hin, hst⟩
      · rintro (⟨h₁, h₂⟩ | ⟨hin, hst⟩)
        · refine ⟨⟨by omega, by omega⟩, ?_⟩
          rw [h₁, h₂, if_neg (self_not_mem_positions p b.rows b.cols row col),
            if_pos ⟨rfl, rfl⟩, ht]
        · have h2 : b.state r c ≤ 1 → False := fun hle => by omega
          have hnotatt : (r, c) ∉ positions p b.rows b.cols row col := by
            intro hmem
            exact h2 (h1 (r, c) hmem)
          have hnotrc : ¬(r = row ∧ c = col) := by
            intro hrc
            rw [hrc.1, hrc.2] at hst
            omega
          rw [if_neg hnotatt, if_neg hnotrc]
          exact ⟨hin, hst⟩
    next ht =>
      ext q
      obtain ⟨r, c⟩ := q
      simp only [Finset.mem_filter, Finset.mem_product, Finset.mem_range]
      rw [add_piece_state_eval b p row col h0 h1]
      constructor
      · rintro ⟨hin, hst⟩
        split at hst
        · omega
        · split at hst
          next => exact absurd (identifier_injective hst).symm ht
          next => exact ⟨hin, hst⟩
      · rintro ⟨hin, hst⟩
        have h2 : b.state r c ≤ 1 → False := fun hle => by omega
        have hnotatt : (r, c) ∉ positions p b.rows b.cols row col := by
          intro hmem
          exact h2 (h1 (r, c) hmem)
        have hnotrc : ¬(r = row ∧ c = col) := by
          intro hrc
          rw [hrc.1, hrc.2] at hst
          omega
        rw [if_neg hnotatt, if_neg hnotrc]
        exact ⟨hin, hst⟩
  rw [hset]
  split
  · rw [Finset.card_insert_of_not_mem (by
      simp only [Finset.mem_filter, Finset.mem_product, Finset.mem_range]
      rintro ⟨-, hst⟩
      omega)]
  · rfl

/-! Behaviour of Board.next_position. -/

/-- Strict row-major (lexicographic) order on squares. -/
def lexLt (a b : ℕ × ℕ) : Prop :=
  a.1 < b.1 ∨ (a.1 = b.1 ∧ a.2 < b.2)

/-- Non-strict row-major (lexicographic) order on squares. -/
def lexLe (a b : ℕ × ℕ) : Prop :=
  a.1 < b.1 ∨ (a.1 = b.1 ∧ a.2 ≤ b.2)

lemma nextPosGo_spec (b : Board) :
    ∀ (fuel nr nc : ℕ), nr < b.rows → nc < b.cols →
      (b.rows - nr) * b.cols - nc ≤ fuel →
      ∀ res fr fc, nextPosGo b fuel nr nc = (res, fr, fc) →
        (fr < b.rows ∧ fc < b.cols) ∧
        lexLe (nr, nc) (fr, fc) ∧
        (∀ r c, r < b.rows → c < b.cols → lexLe (nr, nc) (r, c) →
          lexLt (r, c) (fr, fc) → b.state r c ≠ 0) ∧
        (∀ q, res = some q → q = (fr, fc) ∧ b.state fr fc = 0) ∧
        (res = none → (fr = b.rows - 1 ∧ fc = b.cols - 1) ∧
          ∀ r c, r < b.rows → c < b.cols → lexLe (nr, nc) (r, c) →
            b.state r c ≠ 0) := by
  intro fuel
  induction fuel with
  | zero =>
    intro nr nc h1 h2 hfuel res fr fc heq
    have hm : 1 * b.cols ≤ (b.rows - nr) * b.cols :=
      Nat.mul_le_mul_right _ (by omega)
    omega
  | succ f ih =>
    intro nr nc h1 h2 hfuel res fr fc heq
    have hm : 1 * b.cols ≤ (b.rows - nr) * b.cols :=
      Nat.mul_le_mul_right _ (by omega)
    by_cases hz : b.state nr nc = 0
    · rw [nextPosGo, if_neg (by simp [hz])] at heq
      obtain ⟨hres, hfr, hfc⟩ : res = some (nr, nc) ∧ fr = nr ∧ fc = nc := by
        have e1 := congrArg Prod.fst heq
        have e2 := congrArg (fun x => x.2.1) heq
        have e3 := congrArg (fun x => x.2.2) heq
        exact ⟨e1.symm, e2.symm, e3.symm⟩
      subst hres; subst hfr; subst hfc
      refine ⟨⟨h1, h2⟩, Or.inr ⟨rfl, le_refl _⟩, ?_, ?_, ?_⟩
      · intro r c _ _ hle hlt
        simp only [lexLe, lexLt] at hle hlt
        omega
      · intro q hq
        injection hq with h
        exact ⟨h.symm, hz⟩
      · intro hq; exact absurd hq (by simp)
    · rw [nextPosGo, if_pos (by simpa using hz)] at heq
      by_cases hcol : nc < b.cols - 1
      · rw [if_pos hcol] at heq
        have ih' := ih nr (nc + 1) h1 (by omega) (by omega) res fr fc heq
        obtain ⟨ihb, ihle, ihscan, ihsome, ihnone⟩ := ih'
        refine ⟨ihb, ?_, ?_, ihsome, ?_⟩
        · simp only [lexLe] at ihle ⊢; omega
        · intro r c hr hc hle hlt
          by_cases hrc : r = nr ∧ c = nc
          · rw [hrc.1, hrc.2]; exact hz
          · refine ihscan r c hr hc ?_ hlt
            simp only [lexLe] at hle ⊢
            omega
        · intro hq
          obtain ⟨hfrc, hall⟩ := ihnone hq
          refine ⟨hfrc, ?_⟩
          intro r c hr hc hle
          by_cases hrc : r = nr ∧ c = nc
          · rw [hrc.1, hrc.2]; exact hz
          · refine hall r c hr hc ?_
            simp only [lexLe] at hle ⊢
            omega
      · rw [if_neg hcol] at heq
        have hnc : nc = b.cols - 1 := by omega
        by_cases hrow : nr < b.rows - 1
        · rw [if_pos hrow] at heq
          have hrem : (b.rows - (nr + 1)) * b.cols - 0 ≤ f := by
            have e : b.rows - nr = (b.rows - (nr + 1)) + 1 := by omega
            rw [e, add_mul, one_mul] at hfuel hm
            omega
          have ih' := ih (nr + 1) 0 (by omega) (by omega) hrem res fr fc heq
          obtain ⟨ihb, ihle, ihscan, ihsome, ihnone⟩ := ih'
          refine ⟨ihb, ?_, ?_, ihsome, ?_⟩
          · simp only [lexLe] at ihle ⊢; omega
          · intro r c hr hc hle hlt
            by_cases hrc : r = nr ∧ c = nc
            · rw [hrc.1, hrc.2]; exact hz
            · refine ihscan r c hr hc ?_ hlt
              simp only [lexLe] at hle ⊢
              omega
          · intro hq
            obtain ⟨hfrc, hall⟩ := ihnone hq
            refine ⟨hfrc, ?_⟩
            intro r c hr hc hle
            by_cases hrc : r = nr ∧ c = nc
            · rw [hrc.1, hrc.2]; exact hz
            · refine hall r c hr hc ?_
              simp only [lexLe] at hle ⊢
              omega
        · rw [if_neg hrow] at heq
          have hnr : nr = b.rows - 1 := by omega
          obtain ⟨hres, hfr, hfc⟩ : res = none ∧ fr = nr ∧ fc = nc := by
            have e1 := congrArg Prod.fst heq
            have e2 := congrArg (fun x => x.2.1) heq
            have e3 := congrArg (fun x => x.2.2) heq
            exact ⟨e1.symm, e2.symm, e3.symm⟩
          subst hres; subst hfr; subst hfc
          refine ⟨⟨h1, h2⟩, Or.inr ⟨rfl, le_refl _⟩, ?_, ?_, ?_⟩
          · intro r c _ _ hle hlt
            simp only [lexLe, lexLt] at hle hlt
            omega
          · intro q hq; exact absurd hq (by simp)
          · intro _
            refine ⟨⟨by omega, by omega⟩, ?_⟩
            intro r c hr hc hle
            simp only [lexLe] at hle
            have hrceq : r = fr ∧ c = fc := by omega
            rw [hrceq.1, hrceq.2]
            exact hz

lemma next_position_fields (b : Board) :
    (b.next_position.2).rows = b.rows ∧ (b.next_position.2).cols = b.cols ∧
    (b.next_position.2).state = b.state ∧ (b.next_position.2).pieces = b.pieces :=
  ⟨rfl, rfl, rfl, rfl⟩

lemma next_position_spec (b : Board)
    (h1 : b.nextRow < b.rows) (h2 : b.nextCol < b.cols) :
    ((b.next_position.2).nextRow < b.rows ∧ (b.next_position.2).nextCol < b.cols) ∧
    lexLe (b.nextRow, b.nextCol)
      ((b.next_position.2).nextRow, (b.next_position.2).nextCol) ∧
    (∀ r c, r < b.rows → c < b.cols →
      lexLe (b.nextRow, b.nextCol) (r, c) →
      lexLt (r, c) ((b.next_position.2).nextRow, (b.next_position.2).nextCol) →
      b.state r c ≠ 0) ∧
    (∀ q, b.next_position.1 = some q →
      q = ((b.next_position.2).nextRow, (b.next_position.2).nextCol) ∧
      b.state q.1 q.2 = 0) ∧
    (b.next_position.1 = none →
      ∀ r c, r < b.rows → c < b.cols →
        lexLe (b.nextRow, b.nextCol) (r, c) → b.state r c ≠ 0) := by
  have hfuel : (b.rows - b.nextRow) * b.cols - b.nextCol ≤ b.rows * b.cols := by
    have := Nat.mul_le_mul_right b.cols (Nat.sub_le b.rows b.nextRow)
    omega
  have hspec := nextPosGo_spec b (b.rows * b.cols) b.nextRow b.nextCol h1 h2 hfuel
    (nextPosGo b (b.rows * b.cols) b.nextRow b.nextCol).1
    (nextPosGo b (b.rows * b.cols) b.nextRow b.nextCol).2.1
    (nextPosGo b (b.rows * b.cols) b.nextRow b.nextCol).2.2 rfl
  obtain ⟨hb, hle, hscan, hsome, hnone⟩ := hspec
  refine ⟨hb, hle, hscan, ?_, ?_⟩
  · intro q hq
    obtain ⟨hq1, hq2⟩ := hsome q hq
    exact ⟨hq1, by rw [hq1]; exact hq2⟩
  · intro hq
    exact (hnone hq).2

/-! The board invariant maintained by new / add_piece / copy / next_position. -/

/-- Invariant of every board the program can build: positive dimensions,
zero outside the matrix, values in range, every attacked square of a placed
piece marked non-zero, no placed piece attacking another, in-bounds cursor,
every square before the cursor non-free, and the pieces set being exactly the
encodings of the occupied squares. -/
structure WF (b : Board) : Prop where
  rowsPos : 0 < b.rows
  colsPos : 0 < b.cols
  outZero : ∀ r c, b.rows ≤ r ∨ b.cols ≤ c → b.state r c = 0
  stateRange : ∀ r c, b.state r c = 0 ∨ b.state r c = 1 ∨
    ∃ p : Piece, b.state r c = identifier p
  attMarked : ∀ p r c, IsPlaced b p r c →
    ∀ q ∈ positions p b.rows b.cols r c, b.state q.1 q.2 ≠ 0
  noAttack : ∀ p r c t r' c', IsPlaced b p r c → IsPlaced b t r' c' →
    (r, c) ≠ (r', c') → (r', c') ∉ positions p b.rows b.cols r c
  cursorRow : b.nextRow < b.rows
  cursorCol : b.nextCol < b.cols
  scanned : ∀ r c, r < b.rows → c < b.cols →
    lexLt (r, c) (b.nextRow, b.nextCol) → b.state r c ≠ 0
  piecesEq : b.pieces = (occupiedSquares b).image
    (fun q => hashOfId (b.state q.1 q.2) q.1 q.2)

/-- Boards reachable through the public mutators, as the solver uses them:
construction via Board.new with positive dimensions, add_piece at an
in-bounds square (out-of-bounds coordinates raise IndexError in Python
before any mutation), copy, and the cursor mutation of next_position. -/
inductive Reachable : Board → Prop where
  | new : ∀ rows cols : ℕ, 0 < rows → 0 < cols → Reachable (emptyBoard rows cols)
  | add : ∀ (b : Board) (p : Piece) (row col : ℕ), Reachable b →
      row < b.rows → col < b.cols → Reachable (b.add_piece p row col).2
  | copy : ∀ b : Board, Reachable b → Reachable b.copy
  | next : ∀ b : Board, Reachable b → Reachable b.next_position.2

lemma copy_eq (b : Board) : b.copy = b := rfl

lemma wf_empty (rows cols : ℕ) (hr : 0 < rows) (hc : 0 < cols) :
    WF (emptyBoard rows cols) := by
  refine ⟨hr, hc, ?_, ?_, ?_, ?_, hr, hc, ?_, ?_⟩
  · intro r c _; rfl
  · intro r c; exact Or.inl rfl
  · intro p r c hplc
    have := identifier_ge_two p
    rw [IsPlaced] at hplc
    simp [emptyBoard] at hplc
    omega
  · intro p r c t r' c' hplc
    have := identifier_ge_two p
    rw [IsPlaced] at hplc
    simp [emptyBoard] at hplc
    omega
  · intro r c _ _ hlt
    simp only [emptyBoard, lexLt] at hlt
    omega
  · simp [emptyBoard, occupiedSquares]

lemma wf_add (b : Board) (p : Piece) (row col : ℕ) (hw : WF b)
    (hrow : row < b.rows) (hcol : col < b.cols) :
    WF (b.add_piece p row col).2 := by
  by_cases hc : b.state row col = 0 ∧
      ∀ q ∈ positions p b.rows b.cols row col, b.state q.1 q.2 ≤ 1
  case neg =>
    rw [add_piece_fail b p row col hc]
    exact hw
  case pos =>
  obtain ⟨h0, h1⟩ := hc
  have hd := add_piece_dims b p row col
  have hst := add_piece_state_eval b p row col h0 h1
  have hnz : ∀ r c, b.state r c ≠ 0 → (b.add_piece p row col).2.state r c ≠ 0 := by
    intro r c h hcontra
    exact h (add_piece_state_zero b p row col h0 h1 r c hcontra)
  have hplaced := add_piece_isPlaced_iff b p row col h0 h1
  have hidp := identifier_ge_two p
  refine ⟨?_, ?_, ?_, ?_, ?_, ?_, ?_, ?_, ?_, ?_⟩
  · rw [hd.1]; exact hw.rowsPos
  · rw [hd.2.1]; exact hw.colsPos
  · intro r c hout
    rw [hd.1, hd.2.1] at hout
    rw [hst]
    have hnotmem : (r, c) ∉ positions p b.rows b.cols row col := by
      intro hmem
      have hb : r < b.rows ∧ c < b.cols :=
        positions_bounds p b.rows b.cols row col (r, c) hmem
      omega
    rw [if_neg hnotmem, if_neg (by intro hrc; obtain ⟨e1, e2⟩ := hrc; omega)]
    exact hw.outZero r c hout
  · intro r c
    rw [hst]
    split
    · exact Or.inr (Or.inl rfl)
    · split
      · exact Or.inr (Or.inr ⟨p, rfl⟩)
      · exact hw.stateRange r c
  · intro t r c hplc q hq
    rw [hd.1, hd.2.1] at hq
    rcases (hplaced t r c).1 hplc with hold | ⟨ht, hr2, hc2⟩
    · exact hnz q.1 q.2 (hw.attMarked t r c hold q hq)
    · rw [ht, hr2, hc2] at hq
      rw [hst]
      rw [if_pos hq]
      omega
  · intro p1 r1 c1 p2 r2 c2 hp1 hp2 hne
    rw [hd.1, hd.2.1]
    rcases (hplaced p1 r1 c1).1 hp1 with hold1 | ⟨ht1, hr1, hc1⟩
    · rcases (hplaced p2 r2 c2).1 hp2 with hold2 | ⟨ht2, hr2, hc2⟩
      · exact hw.noAttack p1 r1 c1 p2 r2 c2 hold1 hold2 hne
      · rw [hr2, hc2]
        intro hmem
        exact (hw.attMarked p1 r1 c1 hold1 (row, col) hmem) h0
    · rw [ht1, hr1, hc1]
      rcases (hplaced p2 r2 c2).1 hp2 with hold2 | ⟨ht2, hr2, hc2⟩
      · intro hmem
        have hle : b.state r2 c2 ≤ 1 := h1 (r2, c2) hmem
        have := identifier_ge_two p2
        rw [IsPlaced] at hold2
        omega
      · rw [hr1, hc1, hr2, hc2] at hne
        exact absurd rfl hne
  · rw [hd.2.2.1, hd.1]; exact hw.cursorRow
  · rw [hd.2.2.2, hd.2.1]; exact hw.cursorCol
  · intro r c hr hc hlt
    rw [hd.1] at hr
    rw [hd.2.1] at hc
    rw [hd.2.2.1, hd.2.2.2] at hlt
    exact hnz r c (hw.scanned r c hr hc hlt)
  · rw [add_piece_pieces_eval b p row col h0 h1, hw.piecesEq]
    have hocc : occupiedSquares (b.add_piece p row col).2 =
        insert (row, col) (occupiedSquares b) := by
      ext q
      obtain ⟨r, c⟩ := q
      simp only [occupiedSquares, Finset.mem_insert, Finset.mem_filter,
        Finset.mem_product, Finset.mem_range, Prod.mk.injEq, hd.1, hd.2.1]
      rw [hst r c]
      constructor
      · rintro ⟨hin, hgt⟩
        split at hgt
        · omega
        · split at hgt
          next hrc => exact Or.inl ⟨hrc.1, hrc.2⟩
          next => exact Or.inr ⟨hin, hgt⟩
      · rintro (⟨e1, e2⟩ | ⟨hin, hgt⟩)
        · refine ⟨⟨by omega, by omega⟩, ?_⟩
          rw [e1, e2, if_neg (self_not_mem_positions p b.rows b.cols row col),
            if_pos ⟨rfl, rfl⟩]
          omega
        · have hnotatt : (r, c) ∉ positions p b.rows b.cols row col := by
            intro hmem
            have hle : b.state r c ≤ 1 := h1 (r, c) hmem
            omega
          have hnotrc : ¬(r = row ∧ c = col) := by
            intro hrc
            rw [hrc.1, hrc.2] at hgt
            omega
          rw [if_neg hnotatt, if_neg hnotrc]
          exact ⟨hin, hgt⟩
    rw [hocc, Finset.image_insert]
    have hnew : hashOfId ((b.add_piece p row col).2.state row col) row col =
        pieceHash p row col := by
      rw [hst row col, if_neg (self_not_mem_positions p b.rows b.cols row col),
        if_pos ⟨rfl, rfl⟩]
      rfl
    rw [hnew]
    congr 1
    apply Finset.image_congr
    intro q hq
    simp only [Finset.coe_filter, occupiedSquares, Set.mem_setOf_eq,
      Finset.mem_product, Finset.mem_range] at hq
    obtain ⟨hin, hgt⟩ := hq
    have hnotatt : (q.1, q.2) ∉ positions p b.rows b.cols row col := by
      intro hmem
      have hle : b.state q.1 q.2 ≤ 1 := h1 (q.1, q.2) hmem
      omega
    have hnotrc : ¬(q.1 = row ∧ q.2 = col) := by
      intro hrc
      rw [hrc.1, hrc.2] at hgt
      omega
    show hashOfId (b.state q.1 q.2) q.1 q.2 =
      hashOfId ((b.add_piece p row col).2.state q.1 q.2) q.1 q.2
    rw [hst q.1 q.2, if_neg hnotatt, if_neg hnotrc]

lemma wf_next (b : Board) (hw : WF b) : WF b.next_position.2 := by
  have hs := next_position_spec b hw.cursorRow hw.cursorCol
  refine ⟨hw.rowsPos, hw.colsPos, hw.outZero, hw.stateRange, hw.attMarked,
    hw.noAttack, hs.1.1, hs.1.2, ?_, hw.piecesEq⟩
  intro r c hr hc hlt
  show b.state r c ≠ 0
  by_cases hold : lexLt (r, c) (b.nextRow, b.nextCol)
  · exact hw.scanned r c hr hc hold
  · refine hs.2.2.1 r c hr hc ?_ hlt
    simp only [lexLt, lexLe] at hold ⊢
    omega

lemma reachable_wf {b : Board} (h : Reachable b) : WF b := by
  induction h with
  | new rows cols hr hc => exact wf_empty rows cols hr hc
  | add b p row col _ hrow hcol ih => exact wf_add b p row col ih hrow hcol
  | copy b _ ih => exact ih
  | next b _ ih => exact wf_next b ih

/-! Behaviour of Board.available_positions, and list helpers. -/

lemma available_positions_snd (b : Board) :
    (b.available_positions).2 = b.next_position.2 := by
  rw [Board.available_positions]
  rcases h : b.next_position.1 with _ | q
  · simp [h]
  · obtain ⟨nr, nc⟩ := q
    simp [h]

lemma freeFrom_mem (b : Board) (nr nc : ℕ) :
    ∀ q ∈ freeFrom b nr nc,
      (nr ≤ q.1 ∧ q.1 < b.rows ∨ q.1 = nr) ∧ q.2 < b.cols ∧
        b.state q.1 q.2 = 0 := by
  intro q hq
  rcases List.mem_append.1 hq with h1 | h2
  · obtain ⟨c, hc, hsome⟩ := List.mem_filterMap.1 h1
    rw [Option.ite_none_right_eq_some] at hsome
    obtain ⟨hz, hqe⟩ := hsome
    have hcr := List.mem_range'_1.1 hc
    injection hqe with hqe'
    have e1 : q.1 = nr := by rw [← hqe']
    have e2 : q.2 = c := by rw [← hqe']
    refine ⟨Or.inr e1, ?_, ?_⟩
    · omega
    · rw [e1, e2]; exact hz
  · obtain ⟨r, hr, hmem⟩ := List.mem_flatMap.1 h2
    obtain ⟨c, hc, hsome⟩ := List.mem_filterMap.1 hmem
    rw [Option.ite_none_right_eq_some] at hsome
    obtain ⟨hz, hqe⟩ := hsome
    have hrr := List.mem_range'_1.1 hr
    have hcr := List.mem_range.1 hc
    injection hqe with hqe'
    have e1 : q.1 = r := by rw [← hqe']
    have e2 : q.2 = c := by rw [← hqe']
    refine ⟨Or.inl ⟨by omega, by omega⟩, by omega, ?_⟩
    rw [e1, e2]; exact hz

lemma available_positions_bounds (b : Board) (hw : WF b) :
    ∀ q ∈ (b.available_positions).1, q.1 < b.rows ∧ q.2 < b.cols := by
  intro q hq
  rw [Board.available_positions] at hq
  rcases h : b.next_position.1 with _ | p
  · rw [h] at hq; simp at hq
  · obtain ⟨nr, nc⟩ := p
    rw [h] at hq
    simp only at hq
    have hsp := next_position_spec b hw.cursorRow hw.cursorCol
    obtain ⟨hcur, _⟩ := hsp.2.2.2.1 (nr, nc) h
    have hnr : nr < b.rows := by
      have := hsp.1.1
      have e : nr = (b.next_position.2).nextRow := congrArg Prod.fst hcur
      omega
    have := freeFrom_mem b.next_position.2 nr nc q hq
    rcases this.1 with hcase | hcase
    · exact ⟨hcase.2, this.2.1⟩
    · rw [hcase]
      exact ⟨hnr, this.2.1⟩

lemma pieceCount_next_position (b : Board) (t : Piece) :
    pieceCount b.next_position.2 t = pieceCount b t := rfl

lemma count_eraseIdx_piece (l : List Piece) :
    ∀ (i : ℕ) (p : Piece), l[i]? = some p → ∀ t : Piece,
      l.count t = (l.eraseIdx i).count t + (if p = t then 1 else 0) := by
  induction l with
  | nil => intro i p hp t; simp at hp
  | cons a tl ih =>
    intro i p hp t
    cases i with
    | zero =>
      simp only [List.getElem?_cons_zero, Option.some.injEq] at hp
      rw [hp, List.eraseIdx_cons_zero, List.count_cons]
      simp [beq_iff_eq]
    | succ j =>
      simp only [List.getElem?_cons_succ] at hp
      rw [List.eraseIdx_cons_succ, List.count_cons, List.count_cons, ih j p hp t]
      ring

lemma eq_singleton_of_getElem (l : List Piece) (hl : l.length = 1) (i : ℕ)
    (p : Piece) (hpi : l[i]? = some p) : l = [p] := by
  match l, hl with
  | [a], _ =>
    have hi : i < 1 := by
      have := (List.getElem?_eq_some_iff.1 hpi).1
      simpa using this
    interval_cases i
    simp only [List.getElem?_cons_zero, Option.some.injEq] at hpi
    rw [hpi]

lemma count_singleton_piece (p t : Piece) :
    ([p] : List Piece).count t = if p = t then 1 else 0 := by
  by_cases hpt : p = t
  · simp [hpt]
  · rw [List.count_cons]
    simp [hpt]

lemma drop_getElem (l : List Piece) (i : ℕ) (p : Piece) (rest : List Piece)
    (hd : l.drop i = p :: rest) : l[i]? = some p := by
  have e : l[i + 0]? = (l.drop i)[0]? := (List.getElem?_drop _ _ _).symm
  rw [Nat.add_zero] at e
  rw [e, hd, List.getElem?_cons_zero]

/-! Soundness of the solver: every yielded board is reachable and holds the
full requested multiset of pieces. -/

lemma posLoop_sound (h : Finset ℕ → ℤ)
    (rec : Board → List Piece → SolverState → List Board × SolverState)
    (boardScan : Board) (pieces : List Piece) (index : ℕ) (piece : Piece)
    (hrec : ∀ b' pcs' st', Reachable b' →
      ∀ x ∈ (rec b' pcs' st').1,
        Reachable x ∧ x.rows = b'.rows ∧ x.cols = b'.cols ∧
        ∀ t, pieceCount x t = pieceCount b' t + pcs'.count t)
    (hpi : pieces[index]? = some piece)
    (hbsR : Reachable boardScan) :
    ∀ (posList : List (ℕ × ℕ)) (nextBoard : Board) (st : SolverState),
      (∀ q ∈ posList, q.1 < boardScan.rows ∧ q.2 < boardScan.cols) →
      Reachable nextBoard →
      nextBoard.rows = boardScan.rows → nextBoard.cols = boardScan.cols →
      (∀ t, pieceCount nextBoard t = pieceCount boardScan t) →
      (∀ x ∈ (posLoop h rec boardScan pieces index piece posList nextBoard st).1,
        Reachable x ∧ x.rows = boardScan.rows ∧ x.cols = boardScan.cols ∧
        ∀ t, pieceCount x t = pieceCount boardScan t + pieces.count t) ∧
      (Reachable
          (posLoop h rec boardScan pieces index piece posList nextBoard st).2.2 ∧
        (posLoop h rec boardScan pieces index piece posList nextBoard st).2.2.rows
          = boardScan.rows ∧
        (posLoop h rec boardScan pieces index piece posList nextBoard st).2.2.cols
          = boardScan.cols ∧
        ∀ t, pieceCount
          (posLoop h rec boardScan pieces index piece posList nextBoard st).2.2 t
          = pieceCount boardScan t) := by
  intro posList
  induction posList with
  | nil =>
    intro nextBoard st _ hnbR hnbrows hnbcols hnbcount
    simp only [posLoop]
    exact ⟨fun x hx => absurd hx (by simp), hnbR, hnbrows, hnbcols, hnbcount⟩
  | cons q rest ih =>
    obtain ⟨row, col⟩ := q
    intro nextBoard st hpos hnbR hnbrows hnbcols hnbcount
    have hposrest : ∀ q ∈ rest, q.1 < boardScan.rows ∧ q.2 < boardScan.cols :=
      fun q hq => hpos q (List.mem_cons_of_mem _ hq)
    have hcopyR : Reachable boardScan.copy := by rw [copy_eq]; exact hbsR
    simp only [posLoop]
    by_cases hA : (nextBoard.add_piece piece row col).1 = true
    case neg =>
      simp only [Bool.not_eq_true] at hA
      have hA' : (nextBoard.add_piece piece row col).1 = false := hA
      rw [if_neg (by simp [hA'])]
      have hsnd := add_piece_snd_of_fst_false nextBoard piece row col hA'
      rw [hsnd]
      exact ih nextBoard st hposrest hnbR hnbrows hnbcols hnbcount
    case pos =>
      rw [if_pos hA]
      obtain ⟨h0, h1⟩ := (add_piece_fst_true_iff nextBoard piece row col).1 hA
      have hrowB : row < nextBoard.rows := by
        rw [hnbrows]; exact (hpos (row, col) (List.mem_cons_self _ _)).1
      have hcolB : col < nextBoard.cols := by
        rw [hnbcols]; exact (hpos (row, col) (List.mem_cons_self _ _)).2
      have hnb2 : Reachable (nextBoard.add_piece piece row col).2 :=
        Reachable.add nextBoard piece row col hnbR hrowB hcolB
      have hdims := add_piece_dims nextBoard piece row col
      have hcount := add_piece_count nextBoard piece row col hrowB hcolB h0 h1
      by_cases hY : pieces.length = 1 ∧
          h (nextBoard.add_piece piece row col).2.pieces ∉ st.solutions
      · rw [if_pos hY]
        have hsingle := eq_singleton_of_getElem pieces hY.1 index piece hpi
        constructor
        · intro x hx
          rcases List.mem_cons.1 hx with rfl | hx'
          · refine ⟨hnb2, hdims.1.trans hnbrows, hdims.2.1.trans hnbcols, ?_⟩
            intro t
            have e2 := hcount t
            have e4 := hnbcount t
            rw [hsingle, count_singleton_piece]
            by_cases ht : t = piece
            · rw [if_pos ht] at e2
              rw [if_pos ht.symm]
              omega
            · rw [if_neg ht] at e2
              rw [if_neg (fun hh => ht hh.symm)]
              omega
          · exact (ih boardScan.copy _ hposrest hcopyR rfl rfl
              (fun t => rfl)).1 x hx'
        · exact (ih boardScan.copy _ hposrest hcopyR rfl rfl (fun t => rfl)).2
      · rw [if_neg hY]
        by_cases hZ : h (nextBoard.add_piece piece row col).2.pieces ∉ st.completed
        · rw [if_pos hZ]
          constructor
          · intro x hx
            rcases List.mem_append.1 hx with hx' | hx'
            · obtain ⟨hxr, hxrows, hxcols, hxcount⟩ :=
                hrec _ _ _ hnb2 x hx'
              refine ⟨hxr, by rw [hxrows, hdims.1, hnbrows],
                by rw [hxcols, hdims.2.1, hnbcols], ?_⟩
              intro t
              have e1 := hxcount t
              have e2 := hcount t
              have e3 := count_eraseIdx_piece pieces index piece hpi t
              have e4 := hnbcount t
              by_cases ht : t = piece
              · rw [if_pos ht] at e2
                rw [if_pos ht.symm] at e3
                omega
              · rw [if_neg ht] at e2
                rw [if_neg (fun hh => ht hh.symm)] at e3
                omega
            · exact (ih boardScan.copy _ hposrest hcopyR rfl rfl
                (fun t => rfl)).1 x hx'
          · exact (ih boardScan.copy _ hposrest hcopyR rfl rfl (fun t => rfl)).2
        · rw [if_neg hZ]
          exact ih boardScan.copy st hposrest hcopyR rfl rfl (fun t => rfl)

lemma pieceLoop_sound (h : Finset ℕ → ℤ)
    (rec : Board → List Piece → SolverState → List Board × SolverState)
    (pieces : List Piece)
    (hrec : ∀ b' pcs' st', Reachable b' →
      ∀ x ∈ (rec b' pcs' st').1,
        Reachable x ∧ x.rows = b'.rows ∧ x.cols = b'.cols ∧
        ∀ t, pieceCount x t = pieceCount b' t + pcs'.count t) :
    ∀ (cur : List Piece) (index : ℕ) (boardScan nextBoard : Board)
      (st : SolverState),
      pieces.drop index = cur →
      Reachable boardScan → Reachable nextBoard →
      nextBoard.rows = boardScan.rows → nextBoard.cols = boardScan.cols →
      (∀ t, pieceCount nextBoard t = pieceCount boardScan t) →
      ∀ x ∈ (pieceLoop h rec pieces index cur boardScan nextBoard st).1,
        Reachable x ∧ x.rows = boardScan.rows ∧ x.cols = boardScan.cols ∧
        ∀ t, pieceCount x t = pieceCount boardScan t + pieces.count t := by
  intro cur
  induction cur with
  | nil =>
    intro index boardScan nextBoard st _ _ _ _ _ _ x hx
    simp [pieceLoop] at hx
  | cons piece rest ih =>
    intro index boardScan nextBoard st hdrop hbsR hnbR hnbrows hnbcols hnbcount
    have hpi : pieces[index]? = some piece := drop_getElem pieces index piece rest hdrop
    have hdrop' : pieces.drop (index + 1) = rest := by
      rw [← List.tail_drop, hdrop]
      rfl
    intro x hx
    simp only [pieceLoop] at hx
    split at hx
    · exact ih (index + 1) boardScan nextBoard st hdrop' hbsR hnbR hnbrows
        hnbcols hnbcount x hx
    · have havsnd := available_positions_snd boardScan
      have havR : Reachable (boardScan.available_positions).2 := by
        rw [havsnd]; exact Reachable.next _ hbsR
      have havrows : (boardScan.available_positions).2.rows = boardScan.rows := by
        rw [havsnd]
        rfl
      have havcols : (boardScan.available_positions).2.cols = boardScan.cols := by
        rw [havsnd]
        rfl
      have havcount : ∀ t, pieceCount (boardScan.available_positions).2 t
          = pieceCount boardScan t := by
        intro t
        rw [havsnd]
        rfl
      have havpos : ∀ q ∈ (boardScan.available_positions).1,
          q.1 < (boardScan.available_positions).2.rows ∧
          q.2 < (boardScan.available_positions).2.cols := by
        intro q hq
        rw [havrows, havcols]
        exact available_positions_bounds boardScan (reachable_wf hbsR) q hq
      have hpl := posLoop_sound h rec (boardScan.available_positions).2 pieces
        index piece hrec hpi havR (boardScan.available_positions).1 nextBoard st
        havpos hnbR (by rw [hnbrows, havrows]) (by rw [hnbcols, havcols])
        (fun t => by rw [hnbcount t, havcount t])
      rcases List.mem_append.1 hx with hx' | hx'
      · obtain ⟨hr, hrows, hcols, hcnt⟩ := hpl.1 x hx'
        exact ⟨hr, by rw [hrows, havrows], by rw [hcols, havcols],
          fun t => by rw [hcnt t, havcount t]⟩
      · obtain ⟨hr2, hrows2, hcols2, hcnt2⟩ := hpl.2
        have := ih (index + 1) (boardScan.available_positions).2 _ _ hdrop'
          havR hr2 (by rw [hrows2, havrows]) (by rw [hcols2, havcols])
          (fun t => by rw [hcnt2 t, havcount t]) x hx'
        obtain ⟨hr, hrows, hcols, hcnt⟩ := this
        exact ⟨hr, by rw [hrows, havrows], by rw [hcols, havcols],
          fun t => by rw [hcnt t, havcount t]⟩

lemma solRecF_sound (h : Finset ℕ → ℤ) :
    ∀ (fuel : ℕ) (b : Board) (pieces : List Piece) (st : SolverState),
      Reachable b →
      ∀ x ∈ (solRecF h fuel b pieces st).1,
        Reachable x ∧ x.rows = b.rows ∧ x.cols = b.cols ∧
        ∀ t, pieceCount x t = pieceCount b t + pieces.count t := by
  intro fuel
  induction fuel with
  | zero =>
    intro b pieces st _ x hx
    simp [solRecF] at hx
  | succ f ihf =>
    intro b pieces st hb x hx
    rw [solRecF] at hx
    rcases hnp : b.next_position.1 with _ | q
    · rw [hnp] at hx
      simp at hx
    · rw [hnp] at hx
      simp only at hx
      have hb2 : Reachable b.next_position.2 := Reachable.next _ hb
      have hcopy : Reachable b.next_position.2.copy := by
        rw [copy_eq]; exact hb2
      have := pieceLoop_sound h (solRecF h f) pieces
        (fun b' pcs' st' hb' => ihf b' pcs' st' hb') pieces 0
        b.next_position.2 b.next_position.2.copy st (by simp) hb2 hcopy
        rfl rfl (fun t => rfl) x hx
      exact this

/-! Dedup correctness: emitted solutions have pairwise distinct key values,
hence pairwise distinct placement-record sets. -/

lemma completedStep_solutions (h : Finset ℕ → ℤ) (b : Board) (st : SolverState) :
    (completedStep h b st).solutions = st.solutions := by
  rw [completedStep]
  split <;> rfl

lemma solRecF_succ_none (h : Finset ℕ → ℤ) (f : ℕ) (b : Board)
    (pieces : List Piece) (st : SolverState) (hnp : b.next_position.1 = none) :
    solRecF h (f + 1) b pieces st = ([], completedStep h b.next_position.2 st) := by
  rw [solRecF, hnp]

lemma solRecF_succ_some (h : Finset ℕ → ℤ) (f : ℕ) (b : Board)
    (pieces : List Piece) (st : SolverState) (q : ℕ × ℕ)
    (hnp : b.next_position.1 = some q) :
    solRecF h (f + 1) b pieces st =
      ((pieceLoop h (solRecF h f) pieces 0 pieces b.next_position.2
          b.next_position.2.copy st).1,
        completedStep h
          (pieceLoop h (solRecF h f) pieces 0 pieces b.next_position.2
            b.next_position.2.copy st).2.2.1
          (pieceLoop h (solRecF h f) pieces 0 pieces b.next_position.2
            b.next_position.2.copy st).2.1) := by
  rw [solRecF, hnp]

lemma posLoop_keys (h : Finset ℕ → ℤ)
    (rec : Board → List Piece → SolverState → List Board × SolverState)
    (boardScan : Board) (pieces : List Piece) (index : ℕ) (piece : Piece)
    (hrec : ∀ b' pcs' st',
      st'.solutions ⊆ (rec b' pcs' st').2.solutions ∧
      (∀ x ∈ (rec b' pcs' st').1,
        h x.pieces ∈ (rec b' pcs' st').2.solutions ∧
        h x.pieces ∉ st'.solutions) ∧
      List.Pairwise (fun a b : Board => h a.pieces ≠ h b.pieces)
        (rec b' pcs' st').1) :
    ∀ (posList : List (ℕ × ℕ)) (nextBoard : Board) (st : SolverState),
      st.solutions ⊆
        (posLoop h rec boardScan pieces index piece posList nextBoard st).2.1.solutions ∧
      (∀ x ∈ (posLoop h rec boardScan pieces index piece posList nextBoard st).1,
        h x.pieces ∈
          (posLoop h rec boardScan pieces index piece posList nextBoard st).2.1.solutions ∧
        h x.pieces ∉ st.solutions) ∧
      List.Pairwise (fun a b : Board => h a.pieces ≠ h b.pieces)
        (posLoop h rec boardScan pieces index piece posList nextBoard st).1 := by
  intro posList
  induction posList with
  | nil =>
    intro nextBoard st
    simp only [posLoop]
    exact ⟨Finset.Subset.refl _, fun x hx => absurd hx (by simp), List.Pairwise.nil⟩
  | cons q rest ih =>
    obtain ⟨row, col⟩ := q
    intro nextBoard st
    simp only [posLoop]
    by_cases hA : (nextBoard.add_piece piece row col).1 = true
    case neg =>
      simp only [Bool.not_eq_true] at hA
      rw [if_neg (by simp [hA])]
      exact ih (nextBoard.add_piece piece row col).2 st
    case pos =>
      rw [if_pos hA]
      by_cases hY : pieces.length = 1 ∧
          h (nextBoard.add_piece piece row col).2.pieces ∉ st.solutions
      · rw [if_pos hY]
        have ih1 := ih boardScan.copy
          { st with solutions :=
              insert (h (nextBoard.add_piece piece row col).2.pieces) st.solutions }
        have hsub1 : st.solutions ⊆ insert
            (h (nextBoard.add_piece piece row col).2.pieces) st.solutions :=
          Finset.subset_insert _ _
        refine ⟨Finset.Subset.trans hsub1 ih1.1, ?_, ?_⟩
        · intro x hx
          rcases List.mem_cons.1 hx with rfl | hx'
          · exact ⟨ih1.1 (Finset.mem_insert_self _ _), hY.2⟩
          · obtain ⟨hin, hnotin⟩ := ih1.2.1 x hx'
            exact ⟨hin, fun hmem => hnotin (hsub1 hmem)⟩
        · rw [List.pairwise_cons]
          refine ⟨?_, ih1.2.2⟩
          intro y hy heq
          obtain ⟨_, hnotin⟩ := ih1.2.1 y hy
          exact hnotin (heq ▸ Finset.mem_insert_self _ _)
      · rw [if_neg hY]
        by_cases hZ : h (nextBoard.add_piece piece row col).2.pieces ∉ st.completed
        · rw [if_pos hZ]
          have hr := hrec (nextBoard.add_piece piece row col).2
            (pieces.eraseIdx index) st
          have ih1 := ih boardScan.copy
            (rec (nextBoard.add_piece piece row col).2 (pieces.eraseIdx index) st).2
          refine ⟨Finset.Subset.trans hr.1 ih1.1, ?_, ?_⟩
          · intro x hx
            rcases List.mem_append.1 hx with hx' | hx'
            · obtain ⟨hin, hnotin⟩ := hr.2.1 x hx'
              exact ⟨ih1.1 hin, hnotin⟩
            · obtain ⟨hin, hnotin⟩ := ih1.2.1 x hx'
              exact ⟨hin, fun hmem => hnotin (hr.1 hmem)⟩
          · rw [List.pairwise_append]
            refine ⟨hr.2.2, ih1.2.2, ?_⟩
            intro a ha y hy heq
            obtain ⟨hain, _⟩ := hr.2.1 a ha
            obtain ⟨_, hynotin⟩ := ih1.2.1 y hy
            exact hynotin (heq ▸ hain)
        · rw [if_neg hZ]
          exact ih boardScan.copy st

lemma pieceLoop_keys (h : Finset ℕ → ℤ)
    (rec : Board → List Piece → SolverState → List Board × SolverState)
    (pieces : List Piece)
    (hrec : ∀ b' pcs' st',
      st'.solutions ⊆ (rec b' pcs' st').2.solutions ∧
      (∀ x ∈ (rec b' pcs' st').1,
        h x.pieces ∈ (rec b' pcs' st').2.solutions ∧
        h x.pieces ∉ st'.solutions) ∧
      List.Pairwise (fun a b : Board => h a.pieces ≠ h b.pieces)
        (rec b' pcs' st').1) :
    ∀ (cur : List Piece) (index : ℕ) (boardScan nextBoard : Board)
      (st : SolverState),
      st.solutions ⊆
        (pieceLoop h rec pieces index cur boardScan nextBoard st).2.1.solutions ∧
      (∀ x ∈ (pieceLoop h rec pieces index cur boardScan nextBoard st).1,
        h x.pieces ∈
          (pieceLoop h rec pieces index cur boardScan nextBoard st).2.1.solutions ∧
        h x.pieces ∉ st.solutions) ∧
      List.Pairwise (fun a b : Board => h a.pieces ≠ h b.pieces)
        (pieceLoop h rec pieces index cur boardScan nextBoard st).1 := by
  intro cur
  induction cur with
  | nil =>
    intro index boardScan nextBoard st
    simp only [pieceLoop]
    exact ⟨Finset.Subset.refl _, fun x hx => absurd hx (by simp), List.Pairwise.nil⟩
  | cons piece rest ih =>
    intro index boardScan nextBoard st
    simp only [pieceLoop]
    split
    · exact ih (index + 1) boardScan nextBoard st
    · have hpl := posLoop_keys h rec (boardScan.available_positions).2 pieces
        index piece hrec (boardScan.available_positions).1 nextBoard st
      have ih1 := ih (index + 1) (boardScan.available_positions).2
        (posLoop h rec (boardScan.available_positions).2 pieces index piece
          (boardScan.available_positions).1 nextBoard st).2.2
        (posLoop h rec (boardScan.available_positions).2 pieces index piece
          (boardScan.available_positions).1 nextBoard st).2.1
      refine ⟨Finset.Subset.trans hpl.1 ih1.1, ?_, ?_⟩
      · intro x hx
        rcases List.mem_append.1 hx with hx' | hx'
        · obtain ⟨hin, hnotin⟩ := hpl.2.1 x hx'
          exact ⟨ih1.1 hin, hnotin⟩
        · obtain ⟨hin, hnotin⟩ := ih1.2.1 x hx'
          exact ⟨hin, fun hmem => hnotin (hpl.1 hmem)⟩
      · rw [List.pairwise_append]
        refine ⟨hpl.2.2, ih1.2.2, ?_⟩
        intro a ha y hy heq
        obtain ⟨hain, _⟩ := hpl.2.1 a ha
        obtain ⟨_, hynotin⟩ := ih1.2.1 y hy
        exact hynotin (heq ▸ hain)

lemma solRecF_keys (h : Finset ℕ → ℤ) :
    ∀ (fuel : ℕ) (b : Board) (pieces : List Piece) (st : SolverState),
      st.solutions ⊆ (solRecF h fuel b pieces st).2.solutions ∧
      (∀ x ∈ (solRecF h fuel b pieces st).1,
        h x.pieces ∈ (solRecF h fuel b pieces st).2.solutions ∧
        h x.pieces ∉ st.solutions) ∧
      List.Pairwise (fun a b : Board => h a.pieces ≠ h b.pieces)
        (solRecF h fuel b pieces st).1 := by
  intro fuel
  induction fuel with
  | zero =>
    intro b pieces st
    simp only [solRecF]
    exact ⟨Finset.Subset.refl _, fun x hx => absurd hx (by simp), List.Pairwise.nil⟩
  | succ f ihf =>
    intro b pieces st
    rcases hnp : b.next_position.1 with _ | q
    · rw [solRecF_succ_none h f b pieces st hnp]
      simp only [completedStep_solutions]
      exact ⟨Finset.Subset.refl _, fun x hx => absurd hx (by simp), List.Pairwise.nil⟩
    · rw [solRecF_succ_some h f b pieces st q hnp]
      simp only [completedStep_solutions]
      exact pieceLoop_keys h (solRecF h f) pieces
        (fun b' pcs' st' => ihf b' pcs' st') pieces 0 b.next_position.2
        b.next_position.2.copy st

/-! Termination of the recursion: the result does not depend on the fuel once
the fuel exceeds the number of pieces left to place. -/

lemma posLoop_congr (h : Finset ℕ → ℤ)
    (rec1 rec2 : Board → List Piece → SolverState → List Board × SolverState)
    (boardScan : Board) (pieces : List Piece) (index : ℕ) (piece : Piece)
    (hrec : ∀ b' st', rec1 b' (pieces.eraseIdx index) st'
      = rec2 b' (pieces.eraseIdx index) st') :
    ∀ (posList : List (ℕ × ℕ)) (nextBoard : Board) (st : SolverState),
      posLoop h rec1 boardScan pieces index piece posList nextBoard st =
      posLoop h rec2 boardScan pieces index piece posList nextBoard st := by
  intro posList
  induction posList with
  | nil => intro nextBoard st; simp only [posLoop]
  | cons q rest ih =>
    obtain ⟨row, col⟩ := q
    intro nextBoard st
    simp only [posLoop]
    by_cases hA : (nextBoard.add_piece piece row col).1 = true
    case neg =>
      rw [if_neg hA, if_neg hA]
      exact ih (nextBoard.add_piece piece row col).2 st
    case pos =>
      rw [if_pos hA, if_pos hA]
      by_cases hY : pieces.length = 1 ∧
          h (nextBoard.add_piece piece row col).2.pieces ∉ st.solutions
      · rw [if_pos hY, if_pos hY]
        rw [ih boardScan.copy _]
      · rw [if_neg hY, if_neg hY]
        by_cases hZ : h (nextBoard.add_piece piece row col).2.pieces ∉ st.completed
        · rw [if_pos hZ, if_pos hZ,
            hrec (nextBoard.add_piece piece row col).2 st, ih boardScan.copy _]
        · rw [if_neg hZ, if_neg hZ]
          exact ih boardScan.copy st

lemma pieceLoop_congr (h : Finset ℕ → ℤ)
    (rec1 rec2 : Board → List Piece → SolverState → List Board × SolverState)
    (pieces : List Piece)
    (hrec : ∀ i, i < pieces.length → ∀ b' st',
      rec1 b' (pieces.eraseIdx i) st' = rec2 b' (pieces.eraseIdx i) st') :
    ∀ (cur : List Piece) (index : ℕ) (boardScan nextBoard : Board)
      (st : SolverState),
      pieces.drop index = cur →
      pieceLoop h rec1 pieces index cur boardScan nextBoard st =
      pieceLoop h rec2 pieces index cur boardScan nextBoard st := by
  intro cur
  induction cur with
  | nil => intro index boardScan nextBoard st _; simp only [pieceLoop]
  | cons piece rest ih =>
    intro index boardScan nextBoard st hdrop
    have hpi := drop_getElem pieces index piece rest hdrop
    have hlen : index < pieces.length := (List.getElem?_eq_some_iff.1 hpi).1
    have hdrop' : pieces.drop (index + 1) = rest := by
      rw [← List.tail_drop, hdrop]
      rfl
    simp only [pieceLoop]
    by_cases hskip : 0 < index ∧ pieces[index - 1]? = some piece
    · rw [if_pos hskip, if_pos hskip]
      exact ih (index + 1) boardScan nextBoard st hdrop'
    · rw [if_neg hskip, if_neg hskip]
      rw [posLoop_congr h rec1 rec2 (boardScan.available_positions).2 pieces
        index piece (hrec index hlen)]
      rw [ih (index + 1) _ _ _ hdrop']

lemma solRecF_fuel_congr (h : Finset ℕ → ℤ) :
    ∀ (n : ℕ) (pieces : List Piece), pieces.length ≤ n →
      ∀ (f g : ℕ), pieces.length < f → pieces.length < g →
      ∀ (b : Board) (st : SolverState),
        solRecF h f b pieces st = solRecF h g b pieces st := by
  intro n
  induction n with
  | zero =>
    intro pieces hlen f g hf hg b st
    obtain ⟨f', rfl⟩ : ∃ f', f = f' + 1 := ⟨f - 1, by omega⟩
    obtain ⟨g', rfl⟩ : ∃ g', g = g' + 1 := ⟨g - 1, by omega⟩
    rcases hnp : b.next_position.1 with _ | q
    · rw [solRecF_succ_none h f' b pieces st hnp,
        solRecF_succ_none h g' b pieces st hnp]
    · rw [solRecF_succ_some h f' b pieces st q hnp,
        solRecF_succ_some h g' b pieces st q hnp]
      rw [pieceLoop_congr h (solRecF h f') (solRecF h g') pieces
        (fun i hi => absurd hi (by omega)) pieces 0 _ _ _ (by simp)]
  | succ n ihn =>
    intro pieces hlen f g hf hg b st
    obtain ⟨f', rfl⟩ : ∃ f', f = f' + 1 := ⟨f - 1, by omega⟩
    obtain ⟨g', rfl⟩ : ∃ g', g = g' + 1 := ⟨g - 1, by omega⟩
    rcases hnp : b.next_position.1 with _ | q
    · rw [solRecF_succ_none h f' b pieces st hnp,
        solRecF_succ_none h g' b pieces st hnp]
    · rw [solRecF_succ_some h f' b pieces st q hnp,
        solRecF_succ_some h g' b pieces st q hnp]
      have hrec : ∀ i, i < pieces.length → ∀ b' st',
          solRecF h f' b' (pieces.eraseIdx i) st'
            = solRecF h g' b' (pieces.eraseIdx i) st' := by
        intro i hi b' st'
        have he := List.length_eraseIdx pieces i
        rw [if_pos hi] at he
        exact ihn (pieces.eraseIdx i) (by omega) f' g' (by omega) (by omega) b' st'
      rw [pieceLoop_congr h (solRecF h f') (solRecF h g') pieces hrec
        pieces 0 _ _ _ (by simp)]

/-! The 16-bit placement record: decoding and injectivity. -/

set_option maxHeartbeats 1000000 in
lemma pieceHash_decode (p : Piece) : ∀ r : ℕ, r < 64 → ∀ c : ℕ, c < 64 →
    pieceHash p r c % 16 = identifier p - 2 ∧
    pieceHash p r c / 16 % 64 = c ∧ pieceHash p r c / 1024 = r := by
  cases p <;> decide

lemma pieces_card_of_small (b : Board) (hw : WF b)
    (h64r : b.rows ≤ 64) (h64c : b.cols ≤ 64) :
    b.pieces.card = (occupiedSquares b).card := by
  rw [hw.piecesEq]
  apply Finset.card_image_of_injOn
  intro q1 hq1 q2 hq2 heq
  simp only [occupiedSquares, Finset.coe_filter, Set.mem_setOf_eq,
    Finset.mem_product, Finset.mem_range] at hq1 hq2
  obtain ⟨⟨hr1, hc1⟩, hs1⟩ := hq1
  obtain ⟨⟨hr2, hc2⟩, hs2⟩ := hq2
  rcases hw.stateRange q1.1 q1.2 with h | h | ⟨p1, hp1⟩
  · omega
  · omega
  rcases hw.stateRange q2.1 q2.2 with h | h | ⟨p2, hp2⟩
  · omega
  · omega
  change hashOfId (b.state q1.1 q1.2) q1.1 q1.2
    = hashOfId (b.state q2.1 q2.2) q2.1 q2.2 at heq
  rw [hp1, hp2] at heq
  have e1 : hashOfId (identifier p1) q1.1 q1.2 = pieceHash p1 q1.1 q1.2 := rfl
  have e2 : hashOfId (identifier p2) q2.1 q2.2 = pieceHash p2 q2.1 q2.2 := rfl
  rw [e1, e2] at heq
  have hd1 := pieceHash_decode p1 q1.1 (by omega) q1.2 (by omega)
  have hd2 := pieceHash_decode p2 q2.1 (by omega) q2.2 (by omega)
  have hrow := congrArg (fun x => x / 1024) heq
  have hcol := congrArg (fun x => x / 16 % 64) heq
  simp only at hrow hcol
  exact Prod.ext (by omega) (by omega)

/-! The claims. -/

/-- C1: for every valid input (positive rows and cols, recognized piece
types, non-negative counts), every Board yielded by the recursive solver's
solutions generator contains exactly the requested number of pieces of each
type, every placement is within the board bounds, no two placements share a
square, and no placement lies in the attacked-square set of any other placed
piece. -/
theorem solver_emits_valid_solutions (h : Finset ℕ → ℤ) (rows cols : ℕ)
    (spec : List (Piece × ℕ)) (hr : 0 < rows) (hc : 0 < cols) :
    ∀ b ∈ (solverSolutions h rows cols spec).1,
      b.rows = rows ∧ b.cols = cols ∧
      (∀ t : Piece, pieceCount b t = (expandPieces spec).count t) ∧
      (∀ r c, 1 < b.state r c → r < rows ∧ c < cols) ∧
      (∀ t t' r c, IsPlaced b t r c → IsPlaced b t' r c → t = t') ∧
      (∀ t r c t' r' c', IsPlaced b t r c → IsPlaced b t' r' c' →
        (r, c) ≠ (r', c') → (r', c') ∉ positions t b.rows b.cols r c) := by
  intro b hb
  have hreach0 : Reachable (emptyBoard rows cols) := Reachable.new rows cols hr hc
  have hb' : b ∈ (solRecF h ((expandPieces spec).length + 1)
      (emptyBoard rows cols) (expandPieces spec) (⟨∅, ∅⟩ : SolverState)).1 := hb
  obtain ⟨hR, hrows, hcols, hcnt⟩ := solRecF_sound h
    ((expandPieces spec).length + 1) (emptyBoard rows cols)
    (expandPieces spec) (⟨∅, ∅⟩ : SolverState) hreach0 b hb'
  have hw := reachable_wf hR
  have hempty : ∀ t : Piece, pieceCount (emptyBoard rows cols) t = 0 := by
    intro t
    rw [pieceCount, Finset.card_eq_zero]
    apply Finset.filter_false_of_mem
    intro q _
    have := identifier_ge_two t
    show ¬((emptyBoard rows cols).state q.1 q.2 = identifier t)
    simp only [emptyBoard]
    omega
  refine ⟨hrows, hcols, ?_, ?_, ?_, ?_⟩
  · intro t
    have := hcnt t
    rw [hempty t] at this
    omega
  · intro r c hgt
    by_contra hcon
    have hout : b.rows ≤ r ∨ b.cols ≤ c := by
      rw [hrows, hcols]
      show rows ≤ r ∨ cols ≤ c
      omega
    have := hw.outZero r c hout
    omega
  · intro t t' r c h1 h2
    rw [IsPlaced] at h1 h2
    exact identifier_injective (h1.symm.trans h2)
  · exact hw.noAttack

/-- C1 witness: the theorem applied at board 1 x 1 with a single King. -/
theorem solver_emits_valid_solutions_witness :
    (0 < 1 ∧ 0 < 1) ∧
    ∀ b ∈ (solverSolutions (fun _ => 0) 1 1 [(Piece.king, 1)]).1,
      b.rows = 1 ∧ b.cols = 1 ∧
      (∀ t : Piece, pieceCount b t = (expandPieces [(Piece.king, 1)]).count t) ∧
      (∀ r c, 1 < b.state r c → r < 1 ∧ c < 1) ∧
      (∀ t t' r c, IsPlaced b t r c → IsPlaced b t' r c → t = t') ∧
      (∀ t r c t' r' c', IsPlaced b t r c → IsPlaced b t' r' c' →
        (r, c) ≠ (r', c') → (r', c') ∉ positions t b.rows b.cols r c) :=
  ⟨⟨by decide, by decide⟩,
    solver_emits_valid_solutions (fun _ => 0) 1 1 [(Piece.king, 1)]
      (by decide) (by decide)⟩

/-- C2 counterexample: Board.new(0, 3) succeeds even though rows = 0 is
non-positive, so no error is raised for rows ≤ 0 in general. -/
theorem board_new_zero_dims_counterexample :
    (0 : ℤ) ≤ 0 ∧ (Board.new 0 3).isSome = true :=
  ⟨le_refl 0, by decide⟩

/-- C2 (amended): Board.new returns an empty board whenever rows ≥ 0 and
cols ≥ 0 (including zero-area boards) and fails (numpy ValueError, not an
InvalidDimensions error) exactly when rows < 0 or cols < 0; that failure
escapes the solver before any search begins. -/
theorem board_new_spec (rows cols : ℤ) :
    (Board.new rows cols = none ↔ rows < 0 ∨ cols < 0) ∧
    (∀ b : Board, Board.new rows cols = some b →
      b.rows = rows.toNat ∧ b.cols = cols.toNat ∧
      (∀ r c, b.state r c = 0) ∧ b.pieces = ∅ ∧
      b.nextRow = 0 ∧ b.nextCol = 0) ∧
    (∀ (h : Finset ℕ → ℤ) (spec : List (Piece × ℕ)),
      rows < 0 ∨ cols < 0 → solverSolutionsZ h rows cols spec = none) := by
  refine ⟨?_, ?_, ?_⟩
  · by_cases hcond : rows < 0 ∨ cols < 0
    · rw [Board.new, if_pos hcond]
      simp [hcond]
    · rw [Board.new, if_neg hcond]
      simp [hcond]
  · intro b hb
    by_cases hcond : rows < 0 ∨ cols < 0
    · rw [Board.new, if_pos hcond] at hb
      exact absurd hb (by simp)
    · rw [Board.new, if_neg hcond] at hb
      injection hb with hb'
      rw [← hb']
      exact ⟨rfl, rfl, fun r c => rfl, rfl, rfl, rfl⟩
  · intro h spec hcond
    have hnone : Board.new rows cols = none := by
      rw [Board.new, if_pos hcond]
    rw [solverSolutionsZ, hnone]

/-- C2 witness: dimension (-1, 3) really fails. -/
theorem board_new_spec_witness : Board.new (-1) 3 = none :=
  (board_new_spec (-1) 3).1.mpr (Or.inl (by decide))

/-- C3 counterexample: on a 3 x 3 board with a King on (0, 0), square (1, 1)
carries an attack mark (value 1); a second King placed on (2, 2) attacks
(1, 1), yet add_piece returns True instead of the False the claim
predicts. -/
theorem add_piece_attack_mark_counterexample :
    ((emptyBoard 3 3).add_piece Piece.king 0 0).2.state 1 1 = 1 ∧
    (1, 1) ∈ positions Piece.king 3 3 2 2 ∧
    ((((emptyBoard 3 3).add_piece Piece.king 0 0).2).add_piece
      Piece.king 2 2).1 = true :=
  ⟨by decide, by decide, by decide⟩

/-- C3 (amended): add_piece(piece, row, col) returns False and leaves the
board unmutated whenever the target square is non-zero, or whenever a square
the piece would attack from (row, col) is occupied by a piece (state value
above 1); a mere attack mark (value 1) on an attacked square does not cause
rejection. -/
theorem add_piece_rejection_spec (b : Board) (p : Piece) (row col : ℕ)
    (h : b.state row col ≠ 0 ∨
      ∃ q ∈ positions p b.rows b.cols row col, 1 < b.state q.1 q.2) :
    b.add_piece p row col = (false, b) := by
  rcases h with h | h
  · rw [Board.add_piece, if_pos h]
  · apply add_piece_fail
    rintro ⟨h0, h1⟩
    obtain ⟨q, hq, hgt⟩ := h
    have := h1 q hq
    omega

/-- C3 witness: a Rook placed on (0, 2) of the 3 x 3 board with a King on
(0, 0) would attack the occupied square (0, 0), so the call is rejected
without mutation. -/
theorem add_piece_rejection_spec_witness :
    ((0, 0) ∈ positions Piece.rook
        ((emptyBoard 3 3).add_piece Piece.king 0 0).2.rows
        ((emptyBoard 3 3).add_piece Piece.king 0 0).2.cols 0 2 ∧
      1 < ((emptyBoard 3 3).add_piece Piece.king 0 0).2.state 0 0) ∧
    ((emptyBoard 3 3).add_piece Piece.king 0 0).2.add_piece Piece.rook 0 2
      = (false, ((emptyBoard 3 3).add_piece Piece.king 0 0).2) :=
  ⟨⟨by decide, by decide⟩,
    add_piece_rejection_spec _ Piece.rook 0 2
      (Or.inr ⟨(0, 0), by decide, by decide⟩)⟩

/-- C4: within one invocation of the solver's solutions generator, no two
yielded solution boards have identical placement-record sets. -/
theorem solver_solutions_pairwise_distinct (h : Finset ℕ → ℤ)
    (rows cols : ℕ) (spec : List (Piece × ℕ)) :
    List.Pairwise (fun a b : Board => a.pieces ≠ b.pieces)
      (solverSolutions h rows cols spec).1 := by
  have hk := (solRecF_keys h ((expandPieces spec).length + 1)
    (emptyBoard rows cols) (expandPieces spec) (⟨∅, ∅⟩ : SolverState)).2.2
  exact hk.imp (fun hne heq => hne (by rw [heq]))

/-- C5: on every reachable board, next_position returns the row-major
smallest square whose state value is 0 (scanning forward from the cursor,
which never moves backwards), and returns none exactly when no free square
remains. -/
theorem next_position_correct (b : Board) (hb : Reachable b) :
    (∀ r c, b.next_position.1 = some (r, c) →
      r < b.rows ∧ c < b.cols ∧ b.state r c = 0 ∧
      (∀ r' c', r' < b.rows → c' < b.cols → b.state r' c' = 0 →
        r < r' ∨ (r = r' ∧ c ≤ c'))) ∧
    (b.next_position.1 = none ↔
      ∀ r c, r < b.rows → c < b.cols → b.state r c ≠ 0) ∧
    lexLe (b.nextRow, b.nextCol)
      ((b.next_position.2).nextRow, (b.next_position.2).nextCol) := by
  have hw := reachable_wf hb
  have hs := next_position_spec b hw.cursorRow hw.cursorCol
  refine ⟨?_, ⟨?_, ?_⟩, hs.2.1⟩
  · intro r c hsome
    obtain ⟨hq1, hq2⟩ := hs.2.2.2.1 (r, c) hsome
    have er : r = (b.next_position.2).nextRow := congrArg Prod.fst hq1
    have ec : c = (b.next_position.2).nextCol := congrArg Prod.snd hq1
    have hinb := hs.1
    refine ⟨by omega, by omega, hq2, ?_⟩
    intro r' c' hr' hc' hfree
    by_contra hcon
    have hlt : r' < r ∨ (r' = r ∧ c' < c) := by omega
    by_cases hbefore : lexLt (r', c') (b.nextRow, b.nextCol)
    · exact hw.scanned r' c' hr' hc' hbefore hfree
    · have hle : lexLe (b.nextRow, b.nextCol) (r', c') := by
        simp only [lexLt, lexLe] at hbefore ⊢
        omega
      refine hs.2.2.1 r' c' hr' hc' hle ?_ hfree
      simp only [lexLt]
      omega
  · intro hnone r' c' hr' hc'
    by_cases hbefore : lexLt (r', c') (b.nextRow, b.nextCol)
    · exact hw.scanned r' c' hr' hc' hbefore
    · refine hs.2.2.2.2 hnone r' c' hr' hc' ?_
      simp only [lexLt] at hbefore
      simp only [lexLe]
      omega
  · intro hall
    rcases hq : b.next_position.1 with _ | q
    · rfl
    · obtain ⟨hq1, hq2⟩ := hs.2.2.2.1 q hq
      have hinb := hs.1
      have e1 : q.1 = (b.next_position.2).nextRow := congrArg Prod.fst hq1
      have e2 : q.2 = (b.next_position.2).nextCol := congrArg Prod.snd hq1
      exact absurd hq2 (hall q.1 q.2 (by omega) (by omega))

/-- C5 witness: the theorem applied to a freshly created 2 x 3 board. -/
theorem next_position_correct_witness :
    (∀ r c, (emptyBoard 2 3).next_position.1 = some (r, c) →
      r < (emptyBoard 2 3).rows ∧ c < (emptyBoard 2 3).cols ∧
      (emptyBoard 2 3).state r c = 0 ∧
      (∀ r' c', r' < (emptyBoard 2 3).rows → c' < (emptyBoard 2 3).cols →
        (emptyBoard 2 3).state r' c' = 0 → r < r' ∨ (r = r' ∧ c ≤ c'))) ∧
    ((emptyBoard 2 3).next_position.1 = none ↔
      ∀ r c, r < (emptyBoard 2 3).rows → c < (emptyBoard 2 3).cols →
        (emptyBoard 2 3).state r c ≠ 0) ∧
    lexLe ((emptyBoard 2 3).nextRow, (emptyBoard 2 3).nextCol)
      (((emptyBoard 2 3).next_position.2).nextRow,
        ((emptyBoard 2 3).next_position.2).nextCol) :=
  next_position_correct (emptyBoard 2 3)
    (Reachable.new 2 3 (by decide) (by decide))

/-- C6: for a run mover (Queen, Bishop, Rook) at an in-bounds square, the
yielded attacked squares are exactly, per direction of the piece's move set,
every square walked outward until the board edge; and the first step of each
in-bounds direction appears both in the step phase and as the first square
of that direction's run phase. -/
theorem positions_run_characterization (p : Piece)
    (hp : p = Piece.queen ∨ p = Piece.bishop ∨ p = Piece.rook)
    (rows cols row col : ℕ) (hrow : row < rows) (hcol : col < cols) :
    (∀ a b : ℕ, (a, b) ∈ positions p rows cols row col ↔
      ∃ d ∈ movesOf p, ∃ k : ℕ, 1 ≤ k ∧
        (a : ℤ) = (row : ℤ) + k * d.1 ∧ (b : ℤ) = (col : ℤ) + k * d.2 ∧
        a < rows ∧ b < cols) ∧
    (∀ d ∈ movesOf p,
      0 ≤ (row : ℤ) + d.1 → (row : ℤ) + d.1 < (rows : ℤ) →
      0 ≤ (col : ℤ) + d.2 → (col : ℤ) + d.2 < (cols : ℤ) →
      (((row : ℤ) + d.1).toNat, ((col : ℤ) + d.2).toNat) ∈
        positions_step rows cols row col (movesOf p) ∧
      (runFromFuel rows cols d (rows + cols) (row : ℤ) (col : ℤ)).head? =
        some (((row : ℤ) + d.1).toNat, ((col : ℤ) + d.2).toNat)) := by
  have hunit : ∀ d ∈ movesOf p,
      (d.1 = -1 ∨ d.1 = 0 ∨ d.1 = 1) ∧ (d.2 = -1 ∨ d.2 = 0 ∨ d.2 = 1) ∧
      ¬(d.1 = 0 ∧ d.2 = 0) := fun d hd =>
    ⟨(movesOf_unit_of_run p hp d hd).1, (movesOf_unit_of_run p hp d hd).2,
      movesOf_nonzero p d hd⟩
  have hpos : positions p rows cols row col
      = positions_run rows cols row col (movesOf p) := by
    rcases hp with rfl | rfl | rfl <;> rfl
  constructor
  · intro a b
    rw [hpos]
    exact positions_run_mem rows cols row col (movesOf p) hrow hcol hunit a b
  · intro d hd c1 c2 c3 c4
    refine ⟨(positions_step_mem rows cols row col (movesOf p) _).2
      ⟨d, hd, ⟨c1, c2, c3, c4⟩, rfl⟩, ?_⟩
    obtain ⟨f, hf⟩ : ∃ f, rows + cols = f + 1 := ⟨rows + cols - 1, by omega⟩
    rw [hf, runFromFuel, if_pos ⟨c1, c2, c3, c4⟩, List.head?_cons]

/-- C6 witness: the theorem applied to a Queen at (1, 1) of a 3 x 3 board. -/
theorem positions_run_characterization_witness :
    (∀ a b : ℕ, (a, b) ∈ positions Piece.queen 3 3 1 1 ↔
      ∃ d ∈ movesOf Piece.queen, ∃ k : ℕ, 1 ≤ k ∧
        (a : ℤ) = (1 : ℤ) + k * d.1 ∧ (b : ℤ) = (1 : ℤ) + k * d.2 ∧
        a < 3 ∧ b < 3) ∧
    (∀ d ∈ movesOf Piece.queen,
      0 ≤ (1 : ℤ) + d.1 → (1 : ℤ) + d.1 < (3 : ℤ) →
      0 ≤ (1 : ℤ) + d.2 → (1 : ℤ) + d.2 < (3 : ℤ) →
      (((1 : ℤ) + d.1).toNat, ((1 : ℤ) + d.2).toNat) ∈
        positions_step 3 3 1 1 (movesOf Piece.queen) ∧
      (runFromFuel 3 3 d (3 + 3) (1 : ℤ) (1 : ℤ)).head? =
        some (((1 : ℤ) + d.1).toNat, ((1 : ℤ) + d.2).toNat)) :=
  positions_run_characterization Piece.queen (Or.inl rfl) 3 3 1 1
    (by decide) (by decide)

/-- Board exhibiting a 16-bit record collision: Kings on (1, 0) and (0, 64)
of a 2 x 65 board both encode to 1024. -/
def collisionBoard : Board :=
  (((emptyBoard 2 65).add_piece Piece.king 1 0).2.add_piece Piece.king 0 64).2

/-- C7 counterexample: on the reachable 2 x 65 board with Kings on (1, 0)
and (0, 64), two distinct squares are occupied but the pieces set holds a
single record, so it does not contain precisely one record per occupied
square. -/
theorem pieces_set_collision_counterexample :
    Reachable collisionBoard ∧
    collisionBoard.state 1 0 = identifier Piece.king ∧
    collisionBoard.state 0 64 = identifier Piece.king ∧
    ((1, 0) : ℕ × ℕ) ≠ (0, 64) ∧
    collisionBoard.pieces.card = 1 ∧
    (occupiedSquares collisionBoard).card = 2 := by
  refine ⟨?_, by decide, by decide, by decide, by decide, by decide⟩
  exact Reachable.add _ Piece.king 0 64
    (Reachable.add _ Piece.king 1 0
      (Reachable.new 2 65 (by decide) (by decide)) (by decide) (by decide))
    (by decide) (by decide)

/-- C7 (amended): for every reachable board, the pieces set is exactly the
image of the occupied-by-piece squares under the 16-bit record encoding, and
on boards with rows ≤ 64 and cols ≤ 64 it holds precisely one record per
occupied square; on larger boards distinct occupied squares may share a
record (uint16 field overlap). -/
theorem pieces_set_image_spec (b : Board) (hb : Reachable b) :
    b.pieces = (occupiedSquares b).image
      (fun q => hashOfId (b.state q.1 q.2) q.1 q.2) ∧
    (b.rows ≤ 64 → b.cols ≤ 64 → b.pieces.card = (occupiedSquares b).card) := by
  have hw := reachable_wf hb
  exact ⟨hw.piecesEq, fun h64r h64c => pieces_card_of_small b hw h64r h64c⟩

/-- C7 witness: the theorem applied to a fresh 2 x 2 board. -/
theorem pieces_set_image_spec_witness :
    (emptyBoard 2 2).pieces = (occupiedSquares (emptyBoard 2 2)).image
      (fun q => hashOfId ((emptyBoard 2 2).state q.1 q.2) q.1 q.2) ∧
    ((emptyBoard 2 2).rows ≤ 64 → (emptyBoard 2 2).cols ≤ 64 →
      (emptyBoard 2 2).pieces.card = (occupiedSquares (emptyBoard 2 2)).card) :=
  pieces_set_image_spec (emptyBoard 2 2)
    (Reachable.new 2 2 (by decide) (by decide))

/-- C8: the recursion of _solutions_recursive terminates: its depth is
bounded by the number of pieces, so the fuelled embedding computes the same
finite result for every fuel exceeding the piece-list length. -/
theorem solutions_recursive_terminates (h : Finset ℕ → ℤ) (board : Board)
    (pieces : List Piece) (st : SolverState) (fuel : ℕ)
    (hfuel : pieces.length < fuel) :
    solRecF h fuel board pieces st = solutionsRecursive h board pieces st :=
  solRecF_fuel_congr h pieces.length pieces (le_refl _) fuel
    (pieces.length + 1) hfuel (by omega) board st

/-- C8 witness: fuel 5 and fuel 2 compute the same enumeration for one King
on a 1 x 1 board. -/
theorem solutions_recursive_terminates_witness :
    solRecF (fun _ => 0) 5 (emptyBoard 1 1) [Piece.king] ⟨∅, ∅⟩ =
    solutionsRecursive (fun _ => 0) (emptyBoard 1 1) [Piece.king] ⟨∅, ∅⟩ :=
  solutions_recursive_terminates (fun _ => 0) (emptyBoard 1 1) [Piece.king]
    ⟨∅, ∅⟩ 5 (by decide)

/-- C9: add_piece returns False without mutation whenever the target square
holds any non-zero value, including a bare attack mark (value 1). -/
theorem add_piece_rejects_nonzero_target (b : Board) (p : Piece)
    (row col : ℕ) (hne : b.state row col ≠ 0) :
    b.add_piece p row col = (false, b) := by
  rw [Board.add_piece, if_pos hne]

/-- C9 witness: square (0, 1) of the 3 x 3 board with a King on (0, 0) is
merely marked attacked (value 1), and a Queen aimed there is rejected
without mutation. -/
theorem add_piece_rejects_nonzero_target_witness :
    ((emptyBoard 3 3).add_piece Piece.king 0 0).2.state 0 1 = 1 ∧
    ((emptyBoard 3 3).add_piece Piece.king 0 0).2.add_piece Piece.queen 0 1
      = (false, ((emptyBoard 3 3).add_piece Piece.king 0 0).2) :=
  ⟨by decide, add_piece_rejects_nonzero_target _ Piece.queen 0 1 (by decide)⟩

/-- C10: for rows and columns below 64 and the five piece identifiers, the
16-bit placement encoding is injective: equal records exactly characterise
equal (piece-type, row, column) triples. -/
theorem piece_hash_injective (p1 p2 : Piece) (r1 c1 r2 c2 : ℕ)
    (h1 : r1 < 64) (h2 : c1 < 64) (h3 : r2 < 64) (h4 : c2 < 64) :
    pieceHash p1 r1 c1 = pieceHash p2 r2 c2 ↔
      (p1 = p2 ∧ r1 = r2 ∧ c1 = c2) := by
  constructor
  · intro heq
    have hd1 := pieceHash_decode p1 r1 h1 c1 h2
    have hd2 := pieceHash_decode p2 r2 h3 c2 h4
    have hrow := congrArg (fun x => x / 1024) heq
    have hcol := congrArg (fun x => x / 16 % 64) heq
    have hid := congrArg (fun x => x % 16) heq
    simp only at hrow hcol hid
    have hig1 := identifier_ge_two p1
    have hig2 := identifier_ge_two p2
    refine ⟨identifier_injective (by omega), by omega, by omega⟩
  · rintro ⟨rfl, rfl, rfl⟩
    rfl

/-- C10 witness: the encoding at a King on (1, 2) compared with itself. -/
theorem piece_hash_injective_witness :
    pieceHash Piece.king 1 2 = pieceHash Piece.king 1 2 ↔
      (Piece.king = Piece.king ∧ 1 = 1 ∧ 2 = 2) :=
  piece_hash_injective Piece.king Piece.king 1 2 1 2
    (by decide) (by decide) (by decide) (by decide)

end ChessChallenge
